import Mathlib

/-! Shallow embedding of the hybrid retrieval core of the `context6` document
search service (document chunker, vector store, semantic engine and hybrid
fusion), together with theorems checking the natural-language specification
against the code.

Conventions:
* JavaScript numbers are embedded as exact numbers: line bookkeeping and
  sizes as `Int`/`Nat` and scores as elements of a linear ordered field
  (`ℚ` or `ℝ` in concrete statements).  `Math.sqrt` is passed explicitly
  as a function parameter and instantiated with `Real.sqrt` in statements
  about concrete similarity scores.
* JavaScript string primitives (`split("\n")`, `trim`, `startsWith`,
  `join("\n")`, `charCodeAt`, decimal/base-36 number rendering) are
  embedded as structurally recursive Lean functions over `String.data`,
  so that every definition evaluates inside the kernel.
* JavaScript `Map` objects are embedded as insertion-ordered association
  lists; `set` replaces in place (keeping the original position) and
  appends fresh keys at the end, exactly like the ECMAScript `Map`.
* `Array.prototype.sort` with comparator `(a, b) => b.score - a.score` is
  embedded as a stable insertion sort ordered by descending score;
  ECMA-262 requires sort to be stable, and a stable sort for a total
  preorder is extensionally unique, so this is faithful.
* Rejected promises / thrown errors are embedded with `Except String`.
-/

deriving instance DecidableEq for Except

namespace Context6

/-! ## JavaScript string primitives -/

/-- Model of `content.split("\n")`: cut at every newline; the number of
fields is one more than the number of newlines, so the empty string
yields `[""]`, exactly as in JavaScript. -/
def splitLinesAux : List Char → List Char → List String
  | [], cur => [⟨cur.reverse⟩]
  | c :: rest, cur =>
    if c = '\n' then ⟨cur.reverse⟩ :: splitLinesAux rest []
    else splitLinesAux rest (c :: cur)

/-- Model of `content.split("\n")`. -/
def splitLines (s : String) : List String :=
  splitLinesAux s.data []

/-- Model of `String.prototype.trim`: strip whitespace from both ends. -/
def jsTrim (s : String) : String :=
  ⟨((s.data.dropWhile Char.isWhitespace).reverse.dropWhile
      Char.isWhitespace).reverse⟩

/-- Model of `s.startsWith(p)`. -/
def jsStartsWith (s p : String) : Bool :=
  p.data.isPrefixOf s.data

/-- Model of `lines.join("\n")`. -/
def joinLines : List String → String
  | [] => ""
  | [l] => l
  | l :: rest => l ++ "\n" ++ joinLines rest

/-! ## Document chunker (`src/utils/documentChunker.ts`) -/

/-- Model of `estimateTokenCount(text) = Math.ceil(text.length / 4)`. -/
def estimateTokenCount (text : String) : Nat :=
  (text.length + 3) / 4

/-- Chunker configuration (`ChunkOptions`). -/
structure ChunkOptions where
  maxChunkSize : Nat
  overlapSize : Nat
  chunkByParagraph : Bool
  preserveCodeBlocks : Bool

/-- A paragraph produced by `extractParagraphs`: content lines plus
0-based first/last line numbers. -/
structure Paragraph where
  content : List String
  startLine : Int
  endLine : Int
deriving DecidableEq

/-- A document chunk (`DocumentChunk`); `startLine`/`endLine` are 1-based. -/
structure DocumentChunk where
  id : String
  content : String
  startLine : Int
  endLine : Int
  chunkIndex : Nat
  filePath : String
  title : String
  totalChunks : Nat
deriving DecidableEq

/-- Coerce an integer onto the signed 32-bit range, the way JavaScript
bitwise operators (`<< `, `&`) do. -/
def toInt32 (n : Int) : Int :=
  (n + 2 ^ 31) % 2 ^ 32 - 2 ^ 31

/-- One iteration of `hashString`'s loop:
`hash = (hash << 5) - hash + char; hash = hash & hash`. -/
def hashStep (h : Int) (c : Nat) : Int :=
  toInt32 (toInt32 (h * 32) - h + c)

/-- The character for one base-36 digit, as produced by
`Number.prototype.toString(36)` (digits then lowercase letters). -/
def base36digit (n : Nat) : Char :=
  if n < 10 then Char.ofNat (48 + n) else Char.ofNat (87 + n)

/-- Most-significant-first base-36 digit list of `n` (fuel-based so that
it reduces in the kernel; `fuel ≥ n` is always enough). -/
def toBase36Core : Nat → Nat → List Char → List Char
  | 0, _, acc => acc
  | fuel + 1, n, acc =>
    if n = 0 then acc
    else toBase36Core fuel (n / 36) (base36digit (n % 36) :: acc)

/-- Model of `n.toString(36)` for a natural number `n`. -/
def toBase36 (n : Nat) : String :=
  if n = 0 then "0" else ⟨toBase36Core n n []⟩

/-- The character for one decimal digit. -/
def decDigit (n : Nat) : Char :=
  Char.ofNat (48 + n)

/-- Most-significant-first decimal digit list of `n` (fuel-based). -/
def decCore : Nat → Nat → List Char → List Char
  | 0, _, acc => acc
  | fuel + 1, n, acc =>
    if n = 0 then acc
    else decCore fuel (n / 10) (decDigit (n % 10) :: acc)

/-- Decimal rendering of a natural number, as JavaScript string
interpolation `${chunkIndex}` produces. -/
def decRepr (n : Nat) : String :=
  if n = 0 then "0" else ⟨decCore n n []⟩

/-- Model of `hashString(str)`: the 32-bit rolling hash (`h := 31*h + code`) of the
string's code units, then `Math.abs(hash).toString(36)`. -/
def hashString (str : String) : String :=
  toBase36 (str.data.foldl (fun h c => hashStep h c.toNat) 0).natAbs

/-- The chunk id built in `createChunk`:
`` `${hashString(filePath)}_${chunkIndex}` ``. -/
def chunkId (filePath : String) (chunkIndex : Nat) : String :=
  hashString filePath ++ "_" ++ decRepr chunkIndex

/-- Model of `createChunk`: builds a chunk from buffered lines; line numbers are
converted from 0-based to 1-based, `totalChunks` stamped later. -/
def createChunk (lines : List String) (filePath title : String)
    (startLine endLine : Int) (chunkIndex : Nat) : DocumentChunk :=
  { id := chunkId filePath chunkIndex
    content := joinLines lines
    startLine := startLine + 1
    endLine := endLine + 1
    chunkIndex := chunkIndex
    filePath := filePath
    title := title
    totalChunks := 0 }

/-- Loop of `extractParagraphs`.  State: remaining lines, current 0-based
line index, current paragraph buffer, its start line, whether we are
inside a fenced code block, and the opening fence text. -/
def extractGo (preserve : Bool) :
    List String → Int → List String → Int → Bool → String → List Paragraph
  | [], i, cur, sl, _, _ =>
    if cur = [] then [] else [⟨cur, sl, i - 1⟩]
  | line :: rest, i, cur, sl, inCB, delim =>
    let t := jsTrim line
    if preserve ∧ jsStartsWith t "```" then
      if ¬ inCB then
        (if cur = [] then [] else [⟨cur, sl, i - 1⟩]) ++
          extractGo preserve rest (i + 1) [line] i true t
      else if t = delim ∨ t = "```" then
        ⟨cur ++ [line], sl, i⟩ :: extractGo preserve rest (i + 1) [] sl false ""
      else
        extractGo preserve rest (i + 1) (cur ++ [line]) sl true delim
    else if ¬ inCB ∧ t = "" then
      (if cur = [] then [] else [⟨cur, sl, i - 1⟩]) ++
        extractGo preserve rest (i + 1) [] sl false delim
    else
      extractGo preserve rest (i + 1) (cur ++ [line])
        (if cur = [] then i else sl) inCB delim

/-- Model of `extractParagraphs(lines, preserveCodeBlocks)`. -/
def extractParagraphs (lines : List String) (preserve : Bool) :
    List Paragraph :=
  extractGo preserve lines 0 [] 0 false ""

/-- Per-line token size sum: the accumulation done by `getOverlap`'s loop. -/
def sumEst (lines : List String) : Nat :=
  (lines.map estimateTokenCount).sum

/-- Backwards scan of `getOverlap`: called on the reversed buffer with the
running size and the current index; returns the index where the
accumulated size first reached `overlapSize`, if it ever does. -/
def overlapScan (overlapSize : Nat) :
    List String → Nat → Nat → Option Nat
  | [], _, _ => none
  | x :: rest, acc, pos =>
    let s := acc + estimateTokenCount x
    if overlapSize ≤ s then some pos else overlapScan overlapSize rest s (pos - 1)

/-- Model of `getOverlap(chunk, overlapSize)`: last lines of `chunk`, accumulated
from the end until the summed size reaches `overlapSize`; the fallback
start index when the loop never reaches the threshold is
`chunk.length - 1`. -/
def getOverlap (chunk : List String) (overlapSize : Nat) : List String :=
  if overlapSize = 0 then []
  else
    match overlapScan overlapSize chunk.reverse 0 (chunk.length - 1) with
    | some i => chunk.drop i
    | none => chunk.drop (chunk.length - 1)

/-- Loop of `splitLargeParagraph`: split one oversized paragraph
line-by-line into sub-chunks each of size at most `maxSize`. -/
def splitLargeGo (maxSize : Nat) (pStart pEnd : Int) :
    List String → Int → List String → Nat → Int →
    List (List String × Int × Int)
  | [], _, cur, _, curStart =>
    if cur = [] then [] else [(cur, curStart, pEnd)]
  | line :: rest, i, cur, cs, curStart =>
    let ls := estimateTokenCount line
    if cs + ls > maxSize ∧ cur ≠ [] then
      (cur, curStart, pStart + i - 1) ::
        splitLargeGo maxSize pStart pEnd rest (i + 1) [line] ls (pStart + i)
    else
      splitLargeGo maxSize pStart pEnd rest (i + 1) (cur ++ [line]) (cs + ls) curStart

/-- Model of `splitLargeParagraph(paragraph, maxSize)`. -/
def splitLargeParagraph (p : Paragraph) (maxSize : Nat) :
    List (List String × Int × Int) :=
  splitLargeGo maxSize p.startLine p.endLine p.content 0 [] 0 p.startLine

/-- Emit the sub-chunks of an oversized paragraph with consecutive
chunk indices. -/
def emitSubChunks (filePath title : String) :
    List (List String × Int × Int) → Nat → List DocumentChunk
  | [], _ => []
  | (ls, s, e) :: rest, ci =>
    createChunk ls filePath title s e ci :: emitSubChunks filePath title rest (ci + 1)

/-- Loop of `chunkByParagraphs`.  State: remaining paragraphs, current
buffer, its accumulated size, its start line, and the next chunk index. -/
def chunkParasGo (opts : ChunkOptions) (filePath title : String) :
    List Paragraph → List String → Nat → Int → Nat → List DocumentChunk
  | [], cur, _, sl, ci =>
    if cur = [] then []
    else [createChunk cur filePath title sl (sl + cur.length - 1) ci]
  | p :: rest, cur, cs, sl, ci =>
    let ps := estimateTokenCount (joinLines p.content)
    if ps > opts.maxChunkSize then
      (if cur = [] then [] else
        [createChunk cur filePath title sl (sl + cur.length - 1) ci]) ++
      (let ci' := if cur = [] then ci else ci + 1
       let subs := splitLargeParagraph p opts.maxChunkSize
       emitSubChunks filePath title subs ci' ++
         chunkParasGo opts filePath title rest [] 0 (p.endLine + 1)
           (ci' + subs.length))
    else if cs + ps > opts.maxChunkSize then
      createChunk cur filePath title sl (sl + cur.length - 1) ci ::
        (let ov := getOverlap cur opts.overlapSize
         chunkParasGo opts filePath title rest (ov ++ p.content)
           (estimateTokenCount (joinLines (ov ++ p.content)))
           (p.startLine - ov.length) (ci + 1))
    else
      chunkParasGo opts filePath title rest (cur ++ p.content) (cs + ps) sl ci

/-- Stamp `totalChunks` on every chunk (the final `.map` of both
chunking modes). -/
def stampTotal (chunks : List DocumentChunk) : List DocumentChunk :=
  chunks.map fun c => { c with totalChunks := chunks.length }

/-- Model of `chunkByParagraphs(lines, filePath, title, options)`. -/
def chunkByParagraphs (lines : List String) (filePath title : String)
    (opts : ChunkOptions) : List DocumentChunk :=
  stampTotal
    (chunkParasGo opts filePath title
      (extractParagraphs lines opts.preserveCodeBlocks) [] 0 0 0)

/-- Loop of `chunkBySize`.  State: remaining lines, current 0-based index,
buffer, its size, its start line, next chunk index. -/
def chunkSizeGo (opts : ChunkOptions) (filePath title : String) :
    List String → Int → List String → Nat → Int → Nat → List DocumentChunk
  | [], i, cur, _, sl, ci =>
    if cur = [] then []
    else [createChunk cur filePath title sl (i - 1) ci]
  | line :: rest, i, cur, cs, sl, ci =>
    let ls := estimateTokenCount line
    if cs + ls > opts.maxChunkSize ∧ cur ≠ [] then
      createChunk cur filePath title sl (i - 1) ci ::
        (let ov := getOverlap cur opts.overlapSize
         chunkSizeGo opts filePath title rest (i + 1) (ov ++ [line])
           (estimateTokenCount (joinLines ov) + ls) (i - ov.length) (ci + 1))
    else
      chunkSizeGo opts filePath title rest (i + 1) (cur ++ [line]) (cs + ls) sl ci

/-- Model of `chunkBySize(lines, filePath, title, options)`. -/
def chunkBySize (lines : List String) (filePath title : String)
    (opts : ChunkOptions) : List DocumentChunk :=
  stampTotal (chunkSizeGo opts filePath title lines 0 [] 0 0 0)

/-- Model of `chunkDocument(content, filePath, title)`: split into lines, then
paragraph-mode or size-mode chunking. -/
def chunkDocument (content : String) (filePath title : String)
    (opts : ChunkOptions) : List DocumentChunk :=
  let lines := splitLines content
  if opts.chunkByParagraph then chunkByParagraphs lines filePath title opts
  else chunkBySize lines filePath title opts


/-- Decoding of a most-significant-first decimal digit list. -/
def decVal (l : List Char) : Nat :=
  l.foldl (fun a c => a * 10 + (c.toNat - 48)) 0

/-! ## Insertion-ordered maps (ECMAScript `Map`) -/

/-- An ECMAScript `Map` with string keys: an insertion-ordered
association list. -/
abbrev JsMap (β : Type) := List (String × β)

/-- Model of `map.set(k, v)`: replace in place if the key exists (keeping its
position), append otherwise. -/
def mapSet {β : Type} : JsMap β → String → β → JsMap β
  | [], k, v => [(k, v)]
  | (k', v') :: rest, k, v =>
    if k' = k then (k, v) :: rest else (k', v') :: mapSet rest k v

/-- Model of `map.get(k)` (`undefined` becomes `none`). -/
def mapGet {β : Type} : JsMap β → String → Option β
  | [], _ => none
  | (k', v') :: rest, k => if k' = k then some v' else mapGet rest k

/-- Model of `map.delete(k)`: `none` when the key is absent (JS returns `false`),
otherwise the map without that key. -/
def mapDelete {β : Type} : JsMap β → String → Option (JsMap β)
  | [], _ => none
  | (k', v') :: rest, k =>
    if k' = k then some rest else (mapDelete rest k).map ((k', v') :: ·)

/-- The keys, in insertion order. -/
def mapKeys {β : Type} (m : JsMap β) : List String := m.map Prod.fst

/-- Model of `Array.from(map.values())`: the values, in insertion order. -/
def mapValues {β : Type} (m : JsMap β) : List β := m.map Prod.snd

/-! ## Stable sort by descending score

`Array.prototype.sort` with comparator `(a, b) => b.score - a.score` is
required by ECMA-262 to sort stably; any stable sort for this total
preorder produces the same list, so we embed it as a stable insertion
sort. -/

/-- Insert `x` (a later element) after every already-placed element whose
score is at least `f x`. -/
def insertScored {K : Type} [LinearOrder K] {α : Type} (f : α → K) :
    List α → α → List α
  | [], x => [x]
  | y :: ys, x =>
    if f x ≤ f y then y :: insertScored f ys x else x :: y :: ys

/-- Stable sort, descending by `f`. -/
def sortByScoreDesc {K : Type} [LinearOrder K] {α : Type} (f : α → K)
    (l : List α) : List α :=
  l.foldl (insertScored f) []

/-! ## Vector store (`src/vectorStore/*.ts`) -/

/-- Model of `VectorMetadata` with the fields the semantic engine stores. -/
structure VectorMetadata where
  id : String
  title : String
  path : String
  modified : Int
  hash : String
  chunkIndex : Nat
  startLine : Int
  endLine : Int
  content : String
deriving DecidableEq

/-- Model of `VectorEntry`. -/
structure VectorEntry (K : Type) where
  vector : List K
  metadata : VectorMetadata
deriving DecidableEq

/-- Vector-store `SearchOptions` (`topK`, optional `minScore`, optional
metadata `filter`). -/
structure VSSearchOptions (K : Type) where
  topK : Nat
  minScore : Option K
  filter : Option (VectorMetadata → Bool)

/-- Vector-store `SearchResult`. -/
structure VSSearchResult (K : Type) where
  entry : VectorEntry K
  score : K
deriving DecidableEq

namespace MemoryVectorStore

variable {K : Type} [LinearOrderedField K]

/-- One pass of `cosineSimilarity`'s loop, accumulating
`(dotProduct, normA, normB)`. -/
def cosineAcc : List (K × K) → K × K × K → K × K × K
  | [], acc => acc
  | (x, y) :: rest, (d, na, nb) =>
    cosineAcc rest (d + x * y, na + x * x, nb + y * y)

/-- Model of `BaseVectorStore.cosineSimilarity` (throws on dimension mismatch;
returns 0 when either norm is 0). -/
def cosineSimilarity (sqrt : K → K) (a b : List K) : Except String K :=
  if a.length ≠ b.length then .error "Vectors must have the same dimension"
  else
    let acc := cosineAcc (a.zip b) (0, 0, 0)
    let normA := sqrt acc.2.1
    let normB := sqrt acc.2.2
    if normA = 0 ∨ normB = 0 then .ok 0
    else .ok (acc.1 / (normA * normB))

/-- Model of `MemoryVectorStore.add`: reject a falsy (empty) id, otherwise
`store.set(id, entry)`. -/
def add (m : JsMap (VectorEntry K)) (e : VectorEntry K) :
    Except String (JsMap (VectorEntry K)) :=
  if e.metadata.id = "" then .error "Vector entry must have an id"
  else .ok (mapSet m e.metadata.id e)

/-- Model of `MemoryVectorStore.addBatch`: sequential `add`; on failure the
entries already added stay added. -/
def addBatch : JsMap (VectorEntry K) → List (VectorEntry K) →
    Except String Unit × JsMap (VectorEntry K)
  | m, [] => (.ok (), m)
  | m, e :: rest =>
    match add m e with
    | .error s => (.error s, m)
    | .ok m' => addBatch m' rest

/-- Model of `MemoryVectorStore.remove`: `NotFound` if the id is absent. -/
def remove (m : JsMap (VectorEntry K)) (id : String) :
    Except String (JsMap (VectorEntry K)) :=
  match mapDelete m id with
  | none => .error ("Vector with id " ++ id ++ " not found")
  | some m' => .ok m'

/-- Model of `MemoryVectorStore.removeBatch`: sequential `remove`; the first
missing id aborts the loop, keeping all prior removals. -/
def removeBatch : JsMap (VectorEntry K) → List String →
    Except String Unit × JsMap (VectorEntry K)
  | m, [] => (.ok (), m)
  | m, id :: rest =>
    match mapDelete m id with
    | none => (.error ("Vector with id " ++ id ++ " not found"), m)
    | some m' => removeBatch m' rest

/-- Model of `MemoryVectorStore.get` (`null` becomes `none`). -/
def get (m : JsMap (VectorEntry K)) (id : String) : Option (VectorEntry K) :=
  mapGet m id

/-- Model of `MemoryVectorStore.has`. -/
def has (m : JsMap (VectorEntry K)) (id : String) : Bool :=
  (mapGet m id).isSome

/-- Model of `MemoryVectorStore.size`. -/
def size (m : JsMap (VectorEntry K)) : Nat :=
  m.length

/-- Score every stored entry against the query (the `for` loop in
`MemoryVectorStore.search`); a dimension mismatch throws out of the
loop. -/
def scoreEntries (sqrt : K → K) (q : List K) :
    List (VectorEntry K) → Except String (List (VSSearchResult K))
  | [] => .ok []
  | e :: rest =>
    match cosineSimilarity sqrt q e.vector with
    | .error s => .error s
    | .ok s =>
      match scoreEntries sqrt q rest with
      | .error s' => .error s'
      | .ok others => .ok (⟨e, s⟩ :: others)

/-- Model of `BaseVectorStore.sortResults`: sort descending by score (stable). -/
def sortResults (l : List (VSSearchResult K)) : List (VSSearchResult K) :=
  sortByScoreDesc (fun r => r.score) l

/-- Model of `BaseVectorStore.applyOptions`: metadata filter, then `minScore`
threshold, then sort descending and truncate to `topK`. -/
def applyOptions (results : List (VSSearchResult K))
    (opts : VSSearchOptions K) : List (VSSearchResult K) :=
  let f1 := match opts.filter with
    | some f => results.filter (fun r => f r.entry.metadata)
    | none => results
  let f2 := match opts.minScore with
    | some ms => f1.filter (fun r => decide (ms ≤ r.score))
    | none => f1
  (sortResults f2).take opts.topK

/-- Model of `MemoryVectorStore.search`. -/
def search (sqrt : K → K) (m : JsMap (VectorEntry K)) (q : List K)
    (opts : VSSearchOptions K) : Except String (List (VSSearchResult K)) :=
  (scoreEntries sqrt q (mapValues m)).map fun results =>
    applyOptions results opts

/-- The search pipeline with every scored entry tagged by its position in
the store's insertion order; this is the formal vehicle for the claim
that ties on score are broken by insertion order. -/
def searchAnnotated (sqrt : K → K) (m : JsMap (VectorEntry K)) (q : List K)
    (opts : VSSearchOptions K) :
    Except String (List (Nat × VSSearchResult K)) :=
  (scoreEntries sqrt q (mapValues m)).map fun results =>
    let tagged := results.enum
    let f1 := match opts.filter with
      | some f => tagged.filter (fun r => f r.2.entry.metadata)
      | none => tagged
    let f2 := match opts.minScore with
      | some ms => f1.filter (fun r => decide (ms ≤ r.2.score))
      | none => f1
    (sortByScoreDesc (fun r => r.2.score) f2).take opts.topK

end MemoryVectorStore

/-- The order "higher score first, ties by smaller tag first". -/
def ScoreLex {K : Type} [LinearOrder K] {α : Type} (f : α → K) (g : α → Nat)
    (a b : α) : Prop :=
  f b < f a ∨ (f a = f b ∧ g a < g b)

/-- Example metadata and entries used in concrete witnesses. -/
def exMeta (i : String) : VectorMetadata :=
  ⟨i, "T", "/doc.md", 0, i, 0, 1, 1, "body"⟩

/-- An example vector entry with id `"A"`. -/
def exEntryA : VectorEntry ℚ := ⟨[1], exMeta "A"⟩

/-- An example vector entry with id `"A"` and a different vector. -/
def exEntryA2 : VectorEntry ℚ := ⟨[2], exMeta "A"⟩

/-- An example vector entry with id `"B"` and the same vector as
`exEntryA`. -/
def exEntryB : VectorEntry ℚ := ⟨[1], exMeta "B"⟩

/-- Scenario entry `[1,0,0]`. -/
noncomputable def scenE1 : VectorEntry ℝ := ⟨[1, 0, 0], exMeta "1"⟩

/-- Scenario entry `[0,1,0]`. -/
noncomputable def scenE2 : VectorEntry ℝ := ⟨[0, 1, 0], exMeta "2"⟩

/-- Scenario entry `[0,0,1]`. -/
noncomputable def scenE3 : VectorEntry ℝ := ⟨[0, 0, 1], exMeta "3"⟩

/-- Scenario entry `[0.7,0.7,0]`. -/
noncomputable def scenE4 : VectorEntry ℝ := ⟨[7/10, 7/10, 0], exMeta "4"⟩

/-- The scenario store holding the four entries in insertion order. -/
noncomputable def scenStore : JsMap (VectorEntry ℝ) :=
  [("1", scenE1), ("2", scenE2), ("3", scenE3), ("4", scenE4)]

/-- The cosine score of the `[0.7,0.7,0]` entry against query `[1,0,0]`:
`0.7 / √0.98 ≈ 0.707`. -/
noncomputable def scenScore4 : ℝ := 7 / 10 / Real.sqrt (49 / 50)

/-! ## Engine-level data model (`src/types.ts`) -/

/-- Model of `FileInfo` (`modified` is the epoch-ms value of the `Date`;
`content` is optional). -/
structure FileInfo where
  path : String
  relativePath : String
  title : String
  size : Nat
  modified : Int
  content : Option String
deriving DecidableEq

/-- Model of `MatchContext`; the source field `end` is named `stop` here because
`end` is a Lean keyword. -/
structure MatchContext where
  line : Int
  text : String
  start : Nat
  stop : Nat
deriving DecidableEq

/-- Engine-level `SearchResult`; the source field `matches` is named
`matchList` here because `matches` is a Lean keyword. -/
structure SearchResult (K : Type) where
  file : FileInfo
  score : K
  matchList : List MatchContext
deriving DecidableEq

/-! ## Hybrid fusion (`src/search/hybridSearch.ts`) -/

/-- Model of `HybridSearchResult`: the merge map's value type. -/
structure HybridSearchResult (K : Type) where
  file : FileInfo
  score : K
  matchList : List MatchContext
  keywordScore : Option K
  semanticScore : Option K
deriving DecidableEq

/-- Model of `HybridSearchEngine.mergeMatches`: primary matches first, then
secondary matches whose snippet text is not present among the primary
texts, capped at 5. -/
def mergeMatches (primary secondary : List MatchContext) :
    List MatchContext :=
  let texts := primary.map (fun m => m.text)
  (primary ++ secondary.filter (fun m => decide (m.text ∉ texts))).take 5

/-- The first loop of `mergeResults`: fold the keyword results into the
merge map. -/
def processKeywordResults {K : Type} :
    List (SearchResult K) → JsMap (HybridSearchResult K) →
    JsMap (HybridSearchResult K)
  | [], acc => acc
  | r :: rest, acc =>
    processKeywordResults rest
      (match mapGet acc r.file.path with
       | some ex => mapSet acc r.file.path
           { ex with
             matchList := mergeMatches ex.matchList r.matchList
             keywordScore := some r.score }
       | none => mapSet acc r.file.path
           ⟨r.file, r.score, r.matchList, some r.score, none⟩)

/-- The second loop of `mergeResults`: fold the semantic results into the
merge map (semantic matches are preferred, so they go first in
`mergeMatches`). -/
def processSemanticResults {K : Type} :
    List (SearchResult K) → JsMap (HybridSearchResult K) →
    JsMap (HybridSearchResult K)
  | [], acc => acc
  | r :: rest, acc =>
    processSemanticResults rest
      (match mapGet acc r.file.path with
       | some ex => mapSet acc r.file.path
           { ex with
             matchList := mergeMatches r.matchList ex.matchList
             semanticScore := some r.score }
       | none => mapSet acc r.file.path
           ⟨r.file, r.score, r.matchList, none, some r.score⟩)

/-- Model of `HybridSearchEngine.mergeResults`: build the merge map, compute the
weighted hybrid score (`?? 0` for a missing engine), sort descending and
truncate to `limit`. -/
def mergeResults {K : Type} [LinearOrderedField K]
    (keywordResults semanticResults : List (SearchResult K)) (limit : Nat)
    (keywordWeight semanticWeight : K) : List (SearchResult K) :=
  let resultMap :=
    processSemanticResults semanticResults
      (processKeywordResults keywordResults [])
  let hybridResults := (mapValues resultMap).map fun hr =>
    ({ file := hr.file,
       score := hr.keywordScore.getD 0 * keywordWeight +
         hr.semanticScore.getD 0 * semanticWeight,
       matchList := hr.matchList } : SearchResult K)
  (sortByScoreDesc (fun r => r.score) hybridResults).take limit

/-- The weight initialization of `HybridSearchEngine`'s constructor:
defaults 0.7/0.3, renormalized when the sum differs from 1 by more than
0.001. -/
def hybridWeights {K : Type} [LinearOrderedField K]
    (cfg : Option (K × K)) : K × K :=
  let kw := (cfg.map Prod.fst).getD (7 / 10)
  let sw := (cfg.map Prod.snd).getD (3 / 10)
  let s := kw + sw
  if 1 / 1000 < |s - 1| then (kw / s, sw / s) else (kw, sw)

/-- The score a child engine's result list assigns to a document path; 0
when the list has no result for that path.  (Formalizes the claim's "the
score from an engine whose result set lacks the document is 0".) -/
def childScore {K : Type} [LinearOrderedField K]
    (l : List (SearchResult K)) (p : String) : K :=
  ((l.find? (fun r => decide (r.file.path = p))).map (fun r => r.score)).getD 0

/-- The paths of a child result list, in order. -/
def pathsOf {K : Type} (l : List (SearchResult K)) : List String :=
  l.map fun r => r.file.path

/-- The merge-map invariant: keys are distinct and each value is stored
under its own file path. -/
def MergeInv {K : Type} (m : JsMap (HybridSearchResult K)) : Prop :=
  (mapKeys m).Nodup ∧ ∀ kv ∈ m, kv.1 = kv.2.file.path

/-- The example file used in the hybrid-score scenario. -/
def exFileA : FileInfo := ⟨"/a.md", "a.md", "A", 10, 0, none⟩

/-! ## Semantic search engine (`src/search/semanticSearch.ts`)

The embedding provider and the on-disk snapshot are external
collaborators; their *outcomes* are part of the engine state: `embed` /
`embedBatch` give the provider's answer for a text, `isReadyOutcome` the
outcome of `isReady()`, and `loadOutcome` the store contents produced by
`FileVectorStore.load()` (only consulted when `usesFileStore`). -/

/-- An `IndexedDocument` (`lastModified` as epoch ms). -/
structure IndexedDocument where
  filePath : String
  chunks : List DocumentChunk
  lastModified : Int
deriving DecidableEq

/-- The state of a `SemanticSearchEngine`. -/
structure SemanticEngine (K : Type) where
  chunkOpts : ChunkOptions
  embed : String → Except String (List K)
  embedBatch : List String → Except String (List (List K))
  isReadyOutcome : Except String Bool
  loadOutcome : Except String (JsMap (VectorEntry K))
  usesFileStore : Bool
  isInitialized : Bool
  store : JsMap (VectorEntry K)
  indexedDocuments : JsMap IndexedDocument
  files : JsMap FileInfo

/-- Model of `SemanticSearchEngine.initialize` (named `initEngine` here): a no-op
when already initialized; otherwise load the cached vectors (file store
only), then require the provider to be ready — any failure here is
thrown to the caller. -/
def initEngine {K : Type} (eng : SemanticEngine K) :
    Except String (SemanticEngine K) :=
  if eng.isInitialized then .ok eng
  else
    match (if eng.usesFileStore then eng.loadOutcome else .ok eng.store) with
    | .error e => .error e
    | .ok store' =>
      match eng.isReadyOutcome with
      | .error e => .error e
      | .ok false => .error "Embedding provider failed to initialize"
      | .ok true => .ok { eng with
          store := store'
          isInitialized := true }

/-- Model of `s.toLowerCase()`. -/
def toLowerString (s : String) : String :=
  ⟨s.data.map Char.toLower⟩

/-- Scan for `pat` at every suffix (model of substring containment). -/
def includesAux (pat : List Char) : List Char → Bool
  | [] => pat.isPrefixOf []
  | c :: rest => pat.isPrefixOf (c :: rest) || includesAux pat rest

/-- Model of `s.includes(sub)`. -/
def jsIncludes (s sub : String) : Bool :=
  includesAux sub.data s.data

/-- Split on maximal runs of separator characters, the way
`String.prototype.split` with a `[...]+` regex does (leading and trailing
empty fields are kept, interior runs produce one cut). -/
def splitRunsAux (sep : Char → Bool) : List Char → List Char → Bool → List String
  | [], cur, _ => [⟨cur.reverse⟩]
  | c :: rest, cur, inSep =>
    if sep c then
      if inSep then splitRunsAux sep rest cur true
      else ⟨cur.reverse⟩ :: splitRunsAux sep rest [] true
    else splitRunsAux sep rest (c :: cur) false

/-- Model of `content.split(/[.!?]+/)`. -/
def splitSentences (s : String) : List String :=
  splitRunsAux (fun c => c = '.' ∨ c = '!' ∨ c = '?') s.data [] false

/-- Model of `query.split(/\s+/)`. -/
def splitWhitespaceRuns (s : String) : List String :=
  splitRunsAux Char.isWhitespace s.data [] false

/-- The scan of `extractMatchText`: keep the (trimmed) sentence containing
the most query words. -/
def findBest (queryWords : List String) :
    List String → String → Nat → String
  | [], best, _ => best
  | s :: rest, best, maxMatches =>
    let mc := (queryWords.filter (fun w => jsIncludes (toLowerString s) w)).length
    if mc > maxMatches then findBest queryWords rest (jsTrim s) mc
    else findBest queryWords rest best maxMatches

/-- Model of `SemanticSearchEngine.extractMatchText`. -/
def extractMatchText (content query : String) : String :=
  let sentences := splitSentences content
  let queryWords := splitWhitespaceRuns (toLowerString query)
  let best := findBest queryWords sentences "" 0
  if best ≠ "" then best else (sentences.head?.map jsTrim).getD ""

/-- The grouping loop of `SemanticSearchEngine.search`: group chunk hits
by file path, keep the maximum chunk score per file, and append one
match context per hit; hits for unknown files are skipped. -/
def groupGo {K : Type} [LinearOrderedField K] (files : JsMap FileInfo)
    (query : String) :
    List (VSSearchResult K) → JsMap (SearchResult K) → JsMap (SearchResult K)
  | [], acc => acc
  | r :: rest, acc =>
    match mapGet files r.entry.metadata.path with
    | none => groupGo files query rest acc
    | some file =>
      let base := (mapGet acc r.entry.metadata.path).getD ⟨file, r.score, []⟩
      let score' := if base.score < r.score then r.score else base.score
      let matchText := extractMatchText r.entry.metadata.content query
      groupGo files query rest
        (mapSet acc r.entry.metadata.path
          ⟨base.file, score',
            base.matchList ++ [⟨r.entry.metadata.startLine, matchText, 0,
              matchText.length⟩]⟩)

/-- The tail of `SemanticSearchEngine.search`'s try block: group, sort
descending by score, truncate to `limit`. -/
def groupResults {K : Type} [LinearOrderedField K] (eng : SemanticEngine K)
    (sr : List (VSSearchResult K)) (query : String) (limit : Nat) :
    List (SearchResult K) :=
  (sortByScoreDesc (fun r => r.score)
    (mapValues (groupGo eng.files query sr []))).take limit

/-- Model of `SemanticSearchEngine.search`: `initialize()` runs **before** the try
block, so its failures propagate; failures of the query embedding or of
the vector-store search are caught and turned into an empty result
list. -/
def semanticSearch {K : Type} [LinearOrderedField K] (sqrt : K → K)
    (eng : SemanticEngine K) (query : String) (limit : Nat) :
    Except String (List (SearchResult K)) :=
  match initEngine eng with
  | .error e => .error e
  | .ok eng' =>
    match ((match eng'.embed query with
      | .error e => .error e
      | .ok qe =>
        MemoryVectorStore.search sqrt eng'.store qe ⟨limit * 2, none, none⟩) :
        Except String (List (VSSearchResult K))) with
    | .error _ => .ok []
    | .ok sr => .ok (groupResults eng' sr query limit)

/-- The vector-entry construction loop of `indexFile`; an index with no
matching embedding (`!vector`) is skipped. -/
def buildEntries {K : Type} (file : FileInfo) :
    List DocumentChunk → List (List K) → List (VectorEntry K)
  | [], _ => []
  | _ :: cs, [] => buildEntries file cs []
  | c :: cs, v :: vs =>
    ⟨v, ⟨c.id, file.title, file.path, file.modified, c.id, c.chunkIndex,
      c.startLine, c.endLine, c.content⟩⟩ :: buildEntries file cs vs

/-- The try block of `indexFile`: chunk, embed in one batch, remove the
path's old vectors, add the new ones, record the indexed document and
the file.  Every failure is caught (keeping whatever store mutations
already happened). -/
def indexFileCore {K : Type} [LinearOrderedField K] (eng : SemanticEngine K)
    (file : FileInfo) (content : String) : SemanticEngine K :=
  let chunks := chunkDocument content file.path file.title eng.chunkOpts
  match eng.embedBatch (chunks.map (fun c => c.content)) with
  | .error _ => eng
  | .ok embeddings =>
    let vectorEntries := buildEntries file chunks embeddings
    match (match mapGet eng.indexedDocuments file.path with
      | some doc =>
        MemoryVectorStore.removeBatch eng.store (doc.chunks.map (fun c : DocumentChunk => c.id))
      | none => (.ok (), eng.store)) with
    | (.error _, store') => { eng with store := store' }
    | (.ok _, store') =>
      match MemoryVectorStore.addBatch store' vectorEntries with
      | (.error _, store2) => { eng with store := store2 }
      | (.ok _, store2) =>
        { eng with
          store := store2
          indexedDocuments := mapSet eng.indexedDocuments file.path
            ⟨file.path, chunks, file.modified⟩
          files := mapSet eng.files file.path file }

/-- Model of `SemanticSearchEngine.indexFile`: skip files without content and
files whose recorded `lastModified` is at least the file's `modified`
timestamp. -/
def indexFile {K : Type} [LinearOrderedField K] (eng : SemanticEngine K)
    (file : FileInfo) : SemanticEngine K :=
  match file.content with
  | none => eng
  | some content =>
    if content = "" then eng
    else
      match mapGet eng.indexedDocuments file.path with
      | some doc =>
        if doc.lastModified ≥ file.modified then eng
        else indexFileCore eng file content
      | none => indexFileCore eng file content

/-- Model of `SemanticSearchEngine.index`: initialize, then index each file in
order. -/
def semanticIndex {K : Type} [LinearOrderedField K] (eng : SemanticEngine K)
    (files : List FileInfo) : Except String (SemanticEngine K) :=
  match initEngine eng with
  | .error e => .error e
  | .ok eng' => .ok (files.foldl indexFile eng')

/-- Model of `SemanticSearchEngine.update`: initialize, then re-index the one
file. -/
def semanticUpdate {K : Type} [LinearOrderedField K] (eng : SemanticEngine K)
    (file : FileInfo) : Except String (SemanticEngine K) :=
  match initEngine eng with
  | .error e => .error e
  | .ok eng' => .ok (indexFile eng' file)

/-- An engine whose provider reports itself not ready: reachable by
constructing the semantic engine with a provider whose `isReady()`
resolves to `false` (for example, a local model that failed to load). -/
def engNotReady : SemanticEngine ℚ :=
  { chunkOpts := ⟨800, 100, true, true⟩
    embed := fun _ => Except.error "embed unavailable"
    embedBatch := fun _ => Except.error "embed unavailable"
    isReadyOutcome := .ok false
    loadOutcome := .ok []
    usesFileStore := false
    isInitialized := false
    store := []
    indexedDocuments := []
    files := [] }

/-- An initialized engine whose provider rejects every embedding call
(a provider outage). -/
def engDown : SemanticEngine ℚ :=
  { chunkOpts := ⟨800, 100, true, true⟩
    embed := fun _ => Except.error "provider down"
    embedBatch := fun _ => Except.error "provider down"
    isReadyOutcome := .ok true
    loadOutcome := .ok []
    usesFileStore := false
    isInitialized := true
    store := []
    indexedDocuments := []
    files := [] }

/-- The file info recorded for the indexed document in the C9 witness
(recorded `lastModified` is 100). -/
def exFileOld : FileInfo :=
  ⟨"/doc.md", "doc.md", "T", 5, 50, some "changed content"⟩

/-- An initialized engine that has already indexed `/doc.md` at
timestamp 100. -/
def engIndexed : SemanticEngine ℚ :=
  { chunkOpts := ⟨800, 100, true, true⟩
    embed := fun _ => Except.error "unused"
    embedBatch := fun _ => Except.error "unused"
    isReadyOutcome := .ok true
    loadOutcome := .ok []
    usesFileStore := false
    isInitialized := true
    store := [("A", exEntryA)]
    indexedDocuments := [("/doc.md", ⟨"/doc.md", [], 100⟩)]
    files := [("/doc.md", exFileOld)] }

/-! ## Helper lemmas about digit renderings -/

lemma decCore_zero (f : Nat) (acc : List Char) : decCore f 0 acc = acc := by
  cases f <;> simp [decCore]

lemma decCore_fuel (n : Nat) : ∀ f₁ f₂ acc, n ≤ f₁ → n ≤ f₂ →
    decCore f₁ n acc = decCore f₂ n acc := by
  induction n using Nat.strong_induction_on with
  | _ n ih =>
    intro f₁ f₂ acc h₁ h₂
    rcases Nat.eq_zero_or_pos n with hn | hn
    · subst hn; rw [decCore_zero, decCore_zero]
    · obtain ⟨g₁, rfl⟩ : ∃ g, f₁ = g + 1 := ⟨f₁ - 1, by omega⟩
      obtain ⟨g₂, rfl⟩ : ∃ g, f₂ = g + 1 := ⟨f₂ - 1, by omega⟩
      have hdiv : n / 10 < n := Nat.div_lt_self hn (by omega)
      simp only [decCore, if_neg (by omega : ¬ n = 0)]
      exact ih (n / 10) hdiv g₁ g₂ _ (by omega) (by omega)

lemma decCore_append (f : Nat) : ∀ n acc,
    decCore f n acc = decCore f n [] ++ acc := by
  induction f with
  | zero => intro n acc; simp [decCore]
  | succ f ih =>
    intro n acc
    rcases Nat.eq_zero_or_pos n with hn | hn
    · subst hn; simp [decCore]
    · simp only [decCore, if_neg (by omega : ¬ n = 0)]
      rw [ih (n / 10) (decDigit (n % 10) :: acc), ih (n / 10) [decDigit (n % 10)]]
      simp

lemma decDigit_toNat (r : Nat) (h : r < 10) : (decDigit r).toNat - 48 = r := by
  interval_cases r <;> decide

lemma decVal_snoc (l : List Char) (c : Char) :
    decVal (l ++ [c]) = decVal l * 10 + (c.toNat - 48) := by
  simp [decVal, List.foldl_append]

lemma decVal_decCore (n : Nat) : decVal (decCore n n []) = n := by
  induction n using Nat.strong_induction_on with
  | _ n ih =>
    rcases Nat.eq_zero_or_pos n with hn | hn
    · subst hn; simp [decCore, decVal]
    · obtain ⟨g, rfl⟩ : ∃ g, n = g + 1 := ⟨n - 1, by omega⟩
      have hdiv : (g + 1) / 10 < g + 1 := Nat.div_lt_self hn (by omega)
      simp only [decCore, if_neg (by omega : ¬ g + 1 = 0)]
      rw [decCore_append, decVal_snoc,
        decCore_fuel ((g + 1) / 10) g ((g + 1) / 10) [] (by omega) le_rfl,
        ih ((g + 1) / 10) hdiv, decDigit_toNat _ (Nat.mod_lt _ (by omega))]
      omega

lemma decVal_decRepr (n : Nat) : decVal (decRepr n).data = n := by
  rcases Nat.eq_zero_or_pos n with hn | hn
  · subst hn; decide
  · have : decRepr n = ⟨decCore n n []⟩ := by
      rw [decRepr, if_neg (by omega : ¬ n = 0)]
    rw [this]
    exact decVal_decCore n

lemma decRepr_inj {m n : Nat} (h : decRepr m = decRepr n) : m = n := by
  have := congrArg (fun s => decVal s.data) h
  simpa [decVal_decRepr] using this

lemma base36digit_ne_underscore (k : Nat) (h : k < 36) :
    base36digit k ≠ '_' := by
  interval_cases k <;> decide

lemma toBase36Core_mem : ∀ (f n : Nat) (acc : List Char) (c : Char),
    c ∈ toBase36Core f n acc → c ∈ acc ∨ ∃ k, k < 36 ∧ c = base36digit k := by
  intro f
  induction f with
  | zero => intro n acc c hc; exact Or.inl hc
  | succ f ih =>
    intro n acc c hc
    rcases Nat.eq_zero_or_pos n with hn | hn
    · subst hn; simp only [toBase36Core, if_pos rfl] at hc; exact Or.inl hc
    · simp only [toBase36Core, if_neg (by omega : ¬ n = 0)] at hc
      rcases ih (n / 36) _ c hc with hmem | hk
      · rcases List.mem_cons.mp hmem with hc0 | hc1
        · exact Or.inr ⟨n % 36, Nat.mod_lt _ (by omega), hc0⟩
        · exact Or.inl hc1
      · exact Or.inr hk

lemma underscore_not_mem_hashString (s : String) :
    '_' ∉ (hashString s).data := by
  unfold hashString toBase36
  set m := (s.data.foldl (fun h c => hashStep h c.toNat) 0).natAbs with hm
  rcases Nat.eq_zero_or_pos m with h0 | h0
  · rw [if_pos h0]; decide
  · rw [if_neg (by omega : ¬ m = 0)]
    intro hmem
    rcases toBase36Core_mem m m [] '_' hmem with h | ⟨k, hk, he⟩
    · simp at h
    · exact base36digit_ne_underscore k hk he.symm

lemma underscore_split : ∀ (x y u v : List Char), '_' ∉ x → '_' ∉ y →
    x ++ '_' :: u = y ++ '_' :: v → x = y ∧ u = v := by
  intro x
  induction x with
  | nil =>
    intro y u v _ hy h
    cases y with
    | nil => simpa using h
    | cons b y' =>
      exfalso
      have : '_' = b := by simpa using congrArg (fun l => l.headI) h
      exact hy (this ▸ List.mem_cons_self b y')
  | cons a x' ih =>
    intro y u v hx hy h
    cases y with
    | nil =>
      exfalso
      have : a = '_' := by simpa using congrArg (fun l => l.headI) h
      exact hx (this ▸ List.mem_cons_self a x')
    | cons b y' =>
      simp only [List.cons_append, List.cons.injEq] at h
      obtain ⟨rfl, htail⟩ := h
      have := ih y' u v (fun hm => hx (List.mem_cons_of_mem _ hm))
        (fun hm => hy (List.mem_cons_of_mem _ hm)) htail
      exact ⟨by rw [this.1], this.2⟩

lemma chunkId_data (p : String) (i : Nat) :
    (chunkId p i).data = (hashString p).data ++ '_' :: (decRepr i).data := by
  simp [chunkId, String.data_append]

lemma chunkId_inj_cases {p q : String} {i j : Nat}
    (h : chunkId p i = chunkId q j) :
    hashString p = hashString q ∧ i = j := by
  have hd := congrArg String.data h
  rw [chunkId_data, chunkId_data] at hd
  have := underscore_split _ _ _ _ (underscore_not_mem_hashString p)
    (underscore_not_mem_hashString q) hd
  exact ⟨String.ext this.1, decRepr_inj (String.ext this.2)⟩

/-! ## Helper lemmas about `getOverlap` -/

lemma sumEst_nil : sumEst [] = 0 := rfl

lemma sumEst_cons (x : String) (l : List String) :
    sumEst (x :: l) = estimateTokenCount x + sumEst l := by
  simp [sumEst]

lemma sumEst_reverse (l : List String) : sumEst l.reverse = sumEst l := by
  simp [sumEst, List.map_reverse, List.sum_reverse]

lemma sumEst_take_add_drop (l : List String) (k : Nat) :
    sumEst (l.take k) + sumEst (l.drop k) = sumEst l := by
  simp [sumEst, List.map_take, List.map_drop, List.sum_take_add_sum_drop]

lemma sumEst_take_le (l : List String) (k : Nat) :
    sumEst (l.take k) ≤ sumEst l := by
  have := sumEst_take_add_drop l k
  omega

lemma sumEst_drop_eq_reverse_take (chunk : List String) (k : Nat)
    (hk : k ≤ chunk.length) :
    sumEst (chunk.drop (chunk.length - k)) = sumEst (chunk.reverse.take k) := by
  have hrev : (chunk.drop (chunk.length - k)).reverse =
      chunk.reverse.take k := by
    rw [List.reverse_drop]
    congr 1
    omega
  calc sumEst (chunk.drop (chunk.length - k))
      = sumEst (chunk.drop (chunk.length - k)).reverse :=
        (sumEst_reverse _).symm
    _ = sumEst (chunk.reverse.take k) := by rw [hrev]

lemma overlapScan_none_iff (ov : Nat) : ∀ (r : List String) (acc pos : Nat),
    overlapScan ov r acc pos = none ↔
      ∀ t, t < r.length → acc + sumEst (r.take (t + 1)) < ov := by
  intro r
  induction r with
  | nil => intro acc pos; simp [overlapScan]
  | cons x rest ih =>
    intro acc pos
    simp only [overlapScan]
    by_cases h : ov ≤ acc + estimateTokenCount x
    · rw [if_pos h]
      constructor
      · intro hfalse; exact absurd hfalse (by simp)
      · intro hall
        exfalso
        have := hall 0 (by simp)
        simp only [List.take, sumEst_cons, sumEst_nil] at this
        omega
    · rw [if_neg h, ih]
      constructor
      · intro hall t ht
        cases t with
        | zero =>
          simp only [List.take, sumEst_cons, sumEst_nil]
          omega
        | succ t' =>
          have := hall t' (by simpa using ht)
          simp only [List.take, sumEst_cons]
          omega
      · intro hall t ht
        have := hall (t + 1) (by simpa using Nat.succ_lt_succ ht)
        simp only [List.take, sumEst_cons] at this
        omega

lemma overlapScan_some (ov : Nat) : ∀ (r : List String) (acc pos i : Nat),
    overlapScan ov r acc pos = some i →
      ∃ t, t < r.length ∧ i = pos - t ∧
        ov ≤ acc + sumEst (r.take (t + 1)) ∧
        ∀ s, s < t → acc + sumEst (r.take (s + 1)) < ov := by
  intro r
  induction r with
  | nil => intro acc pos i h; simp [overlapScan] at h
  | cons x rest ih =>
    intro acc pos i h
    simp only [overlapScan] at h
    by_cases hx : ov ≤ acc + estimateTokenCount x
    · rw [if_pos hx] at h
      refine ⟨0, by simp, by simpa using h.symm, ?_, by omega⟩
      simp only [List.take, sumEst_cons, sumEst_nil]
      omega
    · rw [if_neg hx] at h
      obtain ⟨t, ht, hi, hth, hmin⟩ := ih (acc + estimateTokenCount x) (pos - 1) i h
      refine ⟨t + 1, by simpa using Nat.succ_lt_succ ht, by omega, ?_, ?_⟩
      · simp only [List.take, sumEst_cons]
        omega
      · intro s hs
        cases s with
        | zero =>
          simp only [List.take, sumEst_cons, sumEst_nil]
          omega
        | succ s' =>
          have := hmin s' (by omega)
          simp only [List.take, sumEst_cons]
          omega

/-- Characterization of `getOverlap`: if the per-line sizes of the buffer
sum to at least `overlapSize`, the overlap is the shortest sufficient
suffix; otherwise it is just the last line (`drop (length - 1)`), not the
whole buffer. -/
lemma getOverlap_spec (chunk : List String) (ov : Nat) (hov : 0 < ov) :
    (ov ≤ sumEst chunk →
      ∃ i, getOverlap chunk ov = chunk.drop i ∧ ov ≤ sumEst (chunk.drop i) ∧
        ∀ j, i < j → sumEst (chunk.drop j) < ov) ∧
    (sumEst chunk < ov →
      getOverlap chunk ov = chunk.drop (chunk.length - 1)) := by
  constructor
  · intro htotal
    have hne : chunk ≠ [] := by
      intro h
      rw [h] at htotal
      simp [sumEst_nil] at htotal
      omega
    have hlenpos : 0 < chunk.length := List.length_pos.mpr hne
    obtain ⟨i, hscan⟩ :
        ∃ i, overlapScan ov chunk.reverse 0 (chunk.length - 1) = some i := by
      rcases h : overlapScan ov chunk.reverse 0 (chunk.length - 1) with _ | i
      · exfalso
        have hall := (overlapScan_none_iff ov chunk.reverse 0
          (chunk.length - 1)).mp h
        have := hall (chunk.length - 1)
          (by simp [List.length_reverse]; omega)
        rw [(by omega : chunk.length - 1 + 1 = chunk.length)] at this
        rw [List.take_of_length_le (by simp)] at this
        rw [sumEst_reverse] at this
        omega
      · exact ⟨i, rfl⟩
    obtain ⟨t, ht, hi, hth, hmin⟩ :=
      overlapScan_some ov chunk.reverse 0 (chunk.length - 1) i hscan
    rw [List.length_reverse] at ht
    have hgo : getOverlap chunk ov = chunk.drop i := by
      rw [getOverlap, if_neg (by omega : ¬ ov = 0), hscan]
    have hieq : i = chunk.length - (t + 1) := by omega
    refine ⟨i, hgo, ?_, ?_⟩
    · rw [hieq, sumEst_drop_eq_reverse_take chunk (t + 1) (by omega)]
      omega
    · intro j hj
      by_cases hjlen : chunk.length ≤ j
      · rw [List.drop_of_length_le hjlen, sumEst_nil]
        omega
      · have hjrepr : j = chunk.length - (chunk.length - 1 - j + 1) := by omega
        rw [hjrepr, sumEst_drop_eq_reverse_take chunk _ (by omega)]
        have := hmin (chunk.length - 1 - j) (by omega)
        omega
  · intro htotal
    have hnone : overlapScan ov chunk.reverse 0 (chunk.length - 1) = none := by
      rw [overlapScan_none_iff]
      intro t _
      have h1 : sumEst (chunk.reverse.take (t + 1)) ≤ sumEst chunk.reverse :=
        sumEst_take_le _ _
      rw [sumEst_reverse] at h1
      omega
    rw [getOverlap, if_neg (by omega : ¬ ov = 0), hnone]

/-! ## Helper lemmas for blank input and size-mode chunking -/

lemma extractGo_blank (preserve : Bool) : ∀ (lines : List String)
    (i sl : Int) (d : String), (∀ l ∈ lines, jsTrim l = "") →
    extractGo preserve lines i [] sl false d = [] := by
  intro lines
  induction lines with
  | nil => intro i sl d _; simp [extractGo]
  | cons l rest ih =>
    intro i sl d h
    have ht : jsTrim l = "" := h l (List.mem_cons_self l rest)
    have hf : jsStartsWith "" "```" = false := by decide
    rw [extractGo]
    simp only [ht]
    rw [if_neg (by simp [hf]), if_pos (by simp)]
    simpa using ih (i + 1) sl d fun l' hl' => h l' (List.mem_cons_of_mem _ hl')

lemma chunkSizeGo_ne_nil (opts : ChunkOptions) (fp title : String) :
    ∀ (lines : List String) (i : Int) (cur : List String) (cs : Nat)
      (sl : Int) (ci : Nat), lines ≠ [] ∨ cur ≠ [] →
    chunkSizeGo opts fp title lines i cur cs sl ci ≠ [] := by
  intro lines
  induction lines with
  | nil =>
    intro i cur cs sl ci h
    rcases h with h | h
    · exact absurd rfl h
    · rw [chunkSizeGo, if_neg h]
      simp
  | cons line rest ih =>
    intro i cur cs sl ci _
    rw [chunkSizeGo]
    by_cases hcond : cs + estimateTokenCount line > opts.maxChunkSize ∧ cur ≠ []
    · rw [if_pos hcond]; simp
    · rw [if_neg hcond]
      exact ih _ _ _ _ _ (Or.inr (by simp))

lemma splitLinesAux_ne_nil : ∀ (l cur : List Char), splitLinesAux l cur ≠ [] := by
  intro l
  induction l with
  | nil => intro cur; simp [splitLinesAux]
  | cons c rest ih =>
    intro cur
    rw [splitLinesAux]
    by_cases hc : c = '\n'
    · rw [if_pos hc]; simp
    · rw [if_neg hc]; exact ih _

lemma splitLines_ne_nil (s : String) : splitLines s ≠ [] :=
  splitLinesAux_ne_nil s.data []

/-! ## Claim C5 -/

/-- Claim C5, counterexample: in paragraph mode (`maxChunkSize = 2`,
`overlapSize = 100`) the flushed chunk `"ab\ncd"` has estimated size
below `overlapSize`, yet the next chunk is `"cd\nef"`, not
`"ab\ncd\nef"`: the overlap seeded into the next buffer was only the
last line `"cd"`, not the whole flushed chunk as the claim states. -/
theorem claim_C5_counterexample :
    estimateTokenCount (joinLines ["ab", "cd"]) < 100 ∧
    getOverlap ["ab", "cd"] 100 ≠ ["ab", "cd"] ∧
    (chunkDocument "ab\ncd\n\nef" "/doc.md" "T" ⟨2, 100, true, true⟩).map
      (fun c => c.content) = ["ab\ncd", "cd\nef"] := by
  decide

/-- Claim C5 (amended): in paragraph mode, when adding a paragraph (that
itself fits in `maxChunkSize`) would make the buffer exceed
`maxChunkSize`, the buffer is flushed as a chunk and the next buffer is
seeded with `getOverlap` of the flushed buffer followed by the new
paragraph; and `getOverlap` returns the shortest trailing run of lines
whose summed estimated size reaches `overlapSize` — but if the whole
buffer's summed size is below `overlapSize` the overlap is only the
*last line* of the flushed chunk, not the whole flushed chunk. -/
theorem claim_C5_amended :
    (∀ (opts : ChunkOptions) (fp title : String) (p : Paragraph)
        (rest : List Paragraph) (cur : List String) (cs : Nat) (sl : Int)
        (ci : Nat),
        estimateTokenCount (joinLines p.content) ≤ opts.maxChunkSize →
        opts.maxChunkSize < cs + estimateTokenCount (joinLines p.content) →
        chunkParasGo opts fp title (p :: rest) cur cs sl ci =
          createChunk cur fp title sl (sl + cur.length - 1) ci ::
            chunkParasGo opts fp title rest
              (getOverlap cur opts.overlapSize ++ p.content)
              (estimateTokenCount
                (joinLines (getOverlap cur opts.overlapSize ++ p.content)))
              (p.startLine - (getOverlap cur opts.overlapSize).length)
              (ci + 1)) ∧
    (∀ (chunk : List String) (ov : Nat), 0 < ov →
        (ov ≤ sumEst chunk →
          ∃ i, getOverlap chunk ov = chunk.drop i ∧
            ov ≤ sumEst (chunk.drop i) ∧
            ∀ j, i < j → sumEst (chunk.drop j) < ov) ∧
        (sumEst chunk < ov →
          getOverlap chunk ov = chunk.drop (chunk.length - 1))) := by
  constructor
  · intro opts fp title p rest cur cs sl ci h1 h2
    rw [chunkParasGo]
    rw [if_neg (by omega), if_pos (by omega)]
  · exact getOverlap_spec

/-- Witness for `claim_C5_amended` at a concrete input. -/
theorem claim_C5_witness :
    estimateTokenCount (joinLines ["ef"]) ≤ 2 ∧
    2 < 2 + estimateTokenCount (joinLines ["ef"]) ∧
    chunkParasGo ⟨2, 100, true, true⟩ "/doc.md" "T" [⟨["ef"], 3, 3⟩]
        ["ab", "cd"] 2 0 0 =
      createChunk ["ab", "cd"] "/doc.md" "T" 0
          (0 + (["ab", "cd"] : List String).length - 1) 0 ::
        chunkParasGo ⟨2, 100, true, true⟩ "/doc.md" "T" []
          (getOverlap ["ab", "cd"] 100 ++ ["ef"])
          (estimateTokenCount
            (joinLines (getOverlap ["ab", "cd"] 100 ++ ["ef"])))
          (3 - (getOverlap ["ab", "cd"] 100).length) 1 ∧
    sumEst ["ab", "cd"] < 100 ∧
    getOverlap ["ab", "cd"] 100 =
      (["ab", "cd"] : List String).drop ((["ab", "cd"] : List String).length - 1) :=
  ⟨by decide, by decide,
    claim_C5_amended.1 ⟨2, 100, true, true⟩ "/doc.md" "T" ⟨["ef"], 3, 3⟩ []
      ["ab", "cd"] 2 0 0 (by decide) (by decide),
    by decide,
    (claim_C5_amended.2 ["ab", "cd"] 100 (by decide)).2 (by decide)⟩

/-! ## Claim C6 -/

/-- Claim C6, counterexample: in size-based mode, `chunkDocument` on empty
content returns one chunk (whose content is the empty line), not zero
chunks. -/
theorem claim_C6_counterexample :
    (chunkDocument "" "/doc.md" "T" ⟨800, 100, false, true⟩).length = 1 := by
  decide

/-- Claim C6 (amended): in paragraph mode, empty or whitespace/blank-only
content yields zero chunks; in size-based mode `chunkDocument` always
yields at least one chunk, so blank input yields a (blank) chunk rather
than zero chunks. -/
theorem claim_C6_amended :
    (∀ (content fp title : String) (maxS ovS : Nat) (pres : Bool),
        (∀ l ∈ splitLines content, jsTrim l = "") →
        chunkDocument content fp title ⟨maxS, ovS, true, pres⟩ = []) ∧
    (∀ (content fp title : String) (maxS ovS : Nat) (pres : Bool),
        chunkDocument content fp title ⟨maxS, ovS, false, pres⟩ ≠ []) := by
  constructor
  · intro content fp title maxS ovS pres h
    have hpara : extractParagraphs (splitLines content) pres = [] :=
      extractGo_blank pres (splitLines content) 0 0 "" h
    simp only [chunkDocument, chunkByParagraphs, if_true]
    rw [hpara]
    rfl
  · intro content fp title maxS ovS pres
    have hne := chunkSizeGo_ne_nil ⟨maxS, ovS, false, pres⟩ fp title
      (splitLines content) 0 [] 0 0 0 (Or.inl (splitLines_ne_nil content))
    simp only [chunkDocument]
    rw [if_neg (by simp)]
    simp only [chunkBySize, stampTotal]
    intro hmap
    exact hne (List.map_eq_nil_iff.mp hmap)

/-- Witness for `claim_C6_amended` at a concrete blank input. -/
theorem claim_C6_witness :
    (∀ l ∈ splitLines "   \n\t ", jsTrim l = "") ∧
    chunkDocument "   \n\t " "/doc.md" "T" ⟨800, 100, true, true⟩ = [] :=
  ⟨by decide,
    claim_C6_amended.1 "   \n\t " "/doc.md" "T" 800 100 true (by decide)⟩

/-! ## Claim C7 -/

/-- Claim C7, counterexample: the paths `"Aa"` and `"BB"` have the same
32-bit rolling hash, so two chunks from *different* document paths with
the same chunk index get the *same* id — uniqueness across the corpus
fails. -/
theorem claim_C7_counterexample :
    (createChunk ["x"] "Aa" "T" 0 0 0).id =
      (createChunk ["y"] "BB" "T" 0 0 0).id ∧
    ("Aa" : String) ≠ "BB" := by
  decide

/-- Claim C7 (amended): chunk ids are deterministic (they depend only on
the document path and chunk index), ids of the same path with different
chunk indices differ, and ids of different paths differ **provided**
their path hash strings differ — which can fail, see the
counterexample. -/
theorem claim_C7_amended :
    (∀ (lines : List String) (fp title : String) (sl el : Int) (ci : Nat),
        (createChunk lines fp title sl el ci).id = chunkId fp ci) ∧
    (∀ (fp : String) (i j : Nat), chunkId fp i = chunkId fp j → i = j) ∧
    (∀ (p q : String) (i j : Nat),
        hashString p ≠ hashString q → chunkId p i ≠ chunkId q j) := by
  refine ⟨fun _ _ _ _ _ _ => rfl, ?_, ?_⟩
  · intro fp i j h
    exact (chunkId_inj_cases h).2
  · intro p q i j hne h
    exact hne (chunkId_inj_cases h).1

/-- Witness for `claim_C7_amended` at concrete inputs. -/
theorem claim_C7_witness :
    chunkId "a" 5 = chunkId "a" 5 ∧
    hashString "a" ≠ hashString "b" ∧
    chunkId "a" 0 ≠ chunkId "b" 0 :=
  ⟨by decide, by decide, claim_C7_amended.2.2 "a" "b" 0 0 (by decide)⟩

/-! ## Lemmas about the stable sort -/

section SortLemmas

variable {K : Type} [LinearOrder K] {α : Type} (f : α → K)

lemma insertScored_mem (l : List α) (x y : α) :
    y ∈ insertScored f l x ↔ y ∈ l ∨ y = x := by
  induction l with
  | nil => simp [insertScored]
  | cons z zs ih =>
    rw [insertScored]
    by_cases h : f x ≤ f z
    · rw [if_pos h]
      simp only [List.mem_cons, ih]
      tauto
    · rw [if_neg h]
      simp only [List.mem_cons]
      tauto

lemma insertScored_perm (l : List α) (x : α) :
    (insertScored f l x).Perm (x :: l) := by
  induction l with
  | nil => simp [insertScored]
  | cons z zs ih =>
    rw [insertScored]
    by_cases h : f x ≤ f z
    · rw [if_pos h]
      exact (ih.cons z).trans (List.Perm.swap x z zs)
    · rw [if_neg h]

lemma foldl_insertScored_perm (l : List α) : ∀ acc : List α,
    (l.foldl (insertScored f) acc).Perm (acc ++ l) := by
  induction l with
  | nil => intro acc; simp
  | cons x xs ih =>
    intro acc
    have h1 := ih (insertScored f acc x)
    have h2 : (insertScored f acc x ++ xs).Perm (acc ++ x :: xs) := by
      have := (insertScored_perm f acc x).append_right xs
      exact this.trans (List.perm_middle.symm)
    simp only [List.foldl_cons]
    exact h1.trans h2

lemma sortByScoreDesc_perm (l : List α) :
    (sortByScoreDesc f l).Perm l := by
  simpa [sortByScoreDesc] using foldl_insertScored_perm f l []

lemma insertScored_pairwise (l : List α) (x : α)
    (h : l.Pairwise (fun a b => f b ≤ f a)) :
    (insertScored f l x).Pairwise (fun a b => f b ≤ f a) := by
  induction l with
  | nil => simp [insertScored]
  | cons z zs ih =>
    rw [insertScored]
    rcases List.pairwise_cons.mp h with ⟨hz, hzs⟩
    by_cases hc : f x ≤ f z
    · rw [if_pos hc]
      refine List.pairwise_cons.mpr ⟨?_, ih hzs⟩
      intro y hy
      rcases (insertScored_mem f zs x y).mp hy with hy | rfl
      · exact hz y hy
      · exact hc
    · rw [if_neg hc]
      refine List.pairwise_cons.mpr ⟨?_, h⟩
      intro y hy
      rcases List.mem_cons.mp hy with rfl | hy
      · exact le_of_lt (lt_of_not_le hc)
      · exact le_trans (hz y hy) (le_of_lt (lt_of_not_le hc))

lemma sortByScoreDesc_pairwise (l : List α) :
    (sortByScoreDesc f l).Pairwise (fun a b => f b ≤ f a) := by
  have main : ∀ (l acc : List α), acc.Pairwise (fun a b => f b ≤ f a) →
      (l.foldl (insertScored f) acc).Pairwise (fun a b => f b ≤ f a) := by
    intro l
    induction l with
    | nil => intro acc h; exact h
    | cons x xs ih =>
      intro acc h
      exact ih _ (insertScored_pairwise f acc x h)
  exact main l [] List.Pairwise.nil


lemma insertScored_pairwise_lex (g : α → Nat) (l : List α) (x : α)
    (hl : l.Pairwise (ScoreLex f g)) (hx : ∀ y ∈ l, g y < g x) :
    (insertScored f l x).Pairwise (ScoreLex f g) := by
  induction l with
  | nil => simp [insertScored]
  | cons z zs ih =>
    rw [insertScored]
    rcases List.pairwise_cons.mp hl with ⟨hz, hzs⟩
    by_cases hc : f x ≤ f z
    · rw [if_pos hc]
      refine List.pairwise_cons.mpr ⟨?_, ?_⟩
      · intro y hy
        rcases (insertScored_mem f zs x y).mp hy with hy | rfl
        · exact hz y hy
        · rcases lt_or_eq_of_le hc with hlt | heq
          · exact Or.inl hlt
          · exact Or.inr ⟨heq.symm, hx z (List.mem_cons_self z zs)⟩
      · exact ih hzs fun y hy => hx y (List.mem_cons_of_mem _ hy)
    · rw [if_neg hc]
      refine List.pairwise_cons.mpr ⟨?_, hl⟩
      intro y hy
      rcases List.mem_cons.mp hy with rfl | hy
      · exact Or.inl (lt_of_not_le hc)
      · rcases hz y hy with h1 | h1
        · exact Or.inl (lt_trans h1 (lt_of_not_le hc))
        · exact Or.inl (h1.1 ▸ lt_of_not_le hc)

lemma sortByScoreDesc_pairwise_lex (g : α → Nat) (l : List α)
    (hl : l.Pairwise (fun a b => g a < g b)) :
    (sortByScoreDesc f l).Pairwise (ScoreLex f g) := by
  have main : ∀ (l acc : List α), acc.Pairwise (ScoreLex f g) →
      (∀ y ∈ acc, ∀ x ∈ l, g y < g x) →
      l.Pairwise (fun a b => g a < g b) →
      (l.foldl (insertScored f) acc).Pairwise (ScoreLex f g) := by
    intro l
    induction l with
    | nil => intro acc h _ _; exact h
    | cons x xs ih =>
      intro acc hacc hcross hlp
      rcases List.pairwise_cons.mp hlp with ⟨hxxs, hxs⟩
      refine ih (insertScored f acc x) ?_ ?_ hxs
      · exact insertScored_pairwise_lex f g acc x hacc
          fun y hy => hcross y hy x (List.mem_cons_self x xs)
      · intro y hy z hz
        rcases (insertScored_mem f acc x y).mp hy with hy | rfl
        · exact hcross y hy z (List.mem_cons_of_mem _ hz)
        · exact hxxs z hz
  exact main l [] List.Pairwise.nil (by simp) hl

lemma insertScored_map_snd (l : List (Nat × α)) (x : Nat × α) :
    (insertScored (fun p => f p.2) l x).map Prod.snd =
      insertScored f (l.map Prod.snd) x.2 := by
  induction l with
  | nil => simp [insertScored]
  | cons z zs ih =>
    rw [insertScored]
    by_cases h : f x.2 ≤ f z.2
    · rw [if_pos h]
      simp only [List.map_cons]
      rw [insertScored, if_pos h, ih]
    · rw [if_neg h]
      simp only [List.map_cons]
      rw [insertScored, if_neg h]

lemma sortByScoreDesc_map_snd (l : List (Nat × α)) :
    (sortByScoreDesc (fun p => f p.2) l).map Prod.snd =
      sortByScoreDesc f (l.map Prod.snd) := by
  have main : ∀ (l acc : List (Nat × α)),
      (l.foldl (insertScored (fun p => f p.2)) acc).map Prod.snd =
        (l.map Prod.snd).foldl (insertScored f) (acc.map Prod.snd) := by
    intro l
    induction l with
    | nil => intro acc; rfl
    | cons x xs ih =>
      intro acc
      simp only [List.foldl_cons, List.map_cons]
      rw [ih, insertScored_map_snd]
  exact main l []

end SortLemmas

/-! ## Lemmas about `JsMap` -/

section MapLemmas

variable {β : Type}

lemma mapGet_mapSet_self (m : JsMap β) (k : String) (v : β) :
    mapGet (mapSet m k v) k = some v := by
  induction m with
  | nil => simp [mapSet, mapGet]
  | cons p rest ih =>
    rw [mapSet]
    by_cases h : p.1 = k
    · rw [if_pos h, mapGet, if_pos rfl]
    · rw [if_neg h, mapGet, if_neg h]
      exact ih

lemma mapGet_mapSet_ne (m : JsMap β) (k k' : String) (v : β) (h : k ≠ k') :
    mapGet (mapSet m k v) k' = mapGet m k' := by
  induction m with
  | nil => simp [mapSet, mapGet, h]
  | cons p rest ih =>
    rw [mapSet]
    by_cases hp : p.1 = k
    · rw [if_pos hp, mapGet, if_neg h, mapGet, if_neg (hp ▸ h)]
    · rw [if_neg hp, mapGet, mapGet]
      by_cases hp' : p.1 = k'
      · rw [if_pos hp', if_pos hp']
      · rw [if_neg hp', if_neg hp']
        exact ih

lemma mapKeys_mapSet_mem (m : JsMap β) (k : String) (v : β)
    (h : k ∈ mapKeys m) : mapKeys (mapSet m k v) = mapKeys m := by
  induction m with
  | nil => simp [mapKeys] at h
  | cons p rest ih =>
    rw [mapSet]
    by_cases hp : p.1 = k
    · rw [if_pos hp]
      simp [mapKeys, hp]
    · rw [if_neg hp]
      have hmem : k ∈ mapKeys rest := by
        rcases List.mem_cons.mp h with h0 | h0
        · exact absurd h0.symm hp
        · exact h0
      exact congrArg (List.cons p.1) (ih hmem)

lemma mapKeys_mapSet_not_mem (m : JsMap β) (k : String) (v : β)
    (h : k ∉ mapKeys m) : mapKeys (mapSet m k v) = mapKeys m ++ [k] := by
  induction m with
  | nil => simp [mapSet, mapKeys]
  | cons p rest ih =>
    have hp : p.1 ≠ k := fun he => h (by simp [mapKeys, he])
    rw [mapSet, if_neg hp]
    exact congrArg (List.cons p.1) (ih fun hm => h (List.mem_cons_of_mem _ hm))

lemma mapSet_length_mem (m : JsMap β) (k : String) (v : β)
    (h : k ∈ mapKeys m) : (mapSet m k v).length = m.length := by
  induction m with
  | nil => simp [mapKeys] at h
  | cons p rest ih =>
    rw [mapSet]
    by_cases hp : p.1 = k
    · rw [if_pos hp]; rfl
    · rw [if_neg hp]
      have : k ∈ mapKeys rest := by
        rcases List.mem_cons.mp h with h0 | h0
        · exact absurd h0.symm hp
        · exact h0
      simp [ih this]

lemma mapGet_isSome_iff_mem (m : JsMap β) (k : String) :
    (mapGet m k).isSome ↔ k ∈ mapKeys m := by
  induction m with
  | nil => simp [mapGet, mapKeys]
  | cons p rest ih =>
    rw [mapGet]
    by_cases hp : p.1 = k
    · rw [if_pos hp]
      simp [mapKeys, hp]
    · rw [if_neg hp]
      simp only [mapKeys, List.map_cons, List.mem_cons]
      rw [ih]
      constructor
      · intro h; exact Or.inr h
      · rintro (h | h)
        · exact absurd h.symm hp
        · exact h

lemma mapDelete_none_iff (m : JsMap β) (k : String) :
    mapDelete m k = none ↔ mapGet m k = none := by
  induction m with
  | nil => simp [mapDelete, mapGet]
  | cons p rest ih =>
    rw [mapDelete, mapGet]
    by_cases hp : p.1 = k
    · rw [if_pos hp, if_pos hp]
      simp
    · rw [if_neg hp, if_neg hp]
      rw [← ih]
      cases mapDelete rest k <;> simp

lemma mapGet_eq_none_of_not_mem (m : JsMap β) (k : String)
    (h : k ∉ mapKeys m) : mapGet m k = none := by
  rcases h0 : mapGet m k with _ | v
  · rfl
  · exact absurd ((mapGet_isSome_iff_mem m k).mp (by simp [h0])) h

lemma mapDelete_some_spec (m : JsMap β) (k : String) (m' : JsMap β)
    (hnd : (mapKeys m).Nodup) (h : mapDelete m k = some m') :
    (mapKeys m').Nodup ∧ mapGet m' k = none ∧
      (∀ k', k' ≠ k → mapGet m' k' = mapGet m k') ∧
      mapKeys m' = (mapKeys m).filter (fun x => decide (x ≠ k)) := by
  induction m generalizing m' with
  | nil => simp [mapDelete] at h
  | cons p rest ih =>
    rw [mapDelete] at h
    rcases List.pairwise_cons.mp hnd with ⟨hp1, hnd'⟩
    by_cases hp : p.1 = k
    · rw [if_pos hp] at h
      have hmr : m' = rest := (Option.some.inj h).symm
      rw [hmr]
      have hknot : k ∉ mapKeys rest := fun hk => hp1 k hk hp
      refine ⟨hnd', mapGet_eq_none_of_not_mem _ _ hknot, ?_, ?_⟩
      · intro k' hk'
        rw [mapGet, if_neg (fun he : p.1 = k' => hk' (he.symm.trans hp))]
      · show mapKeys rest = (p.1 :: mapKeys rest).filter (fun x => decide (x ≠ k))
        rw [List.filter_cons_of_neg (by simp [hp])]
        rw [List.filter_eq_self.mpr]
        intro a ha
        simp only [decide_eq_true_eq]
        exact fun he => hknot (he ▸ ha)
    · rw [if_neg hp] at h
      rcases h0 : mapDelete rest k with _ | rest'
      · rw [h0] at h; simp at h
      · rw [h0] at h
        have hmr : m' = p :: rest' := by
          simpa using (Option.some.inj (by simpa using h)).symm
        rw [hmr]
        obtain ⟨ha, hb, hc, hd⟩ := ih rest' hnd' h0
        refine ⟨?_, ?_, ?_, ?_⟩
        · show (p.1 :: mapKeys rest').Nodup
          refine List.pairwise_cons.mpr ⟨?_, ha⟩
          intro a hax
          have : a ∈ mapKeys rest :=
            List.mem_of_mem_filter (hd ▸ hax)
          exact hp1 a this
        · rw [mapGet, if_neg hp]
          exact hb
        · intro k' hk'
          rw [mapGet, mapGet]
          by_cases hpk : p.1 = k'
          · rw [if_pos hpk, if_pos hpk]
          · rw [if_neg hpk, if_neg hpk]
            exact hc k' hk'
        · show p.1 :: mapKeys rest' =
            (p.1 :: mapKeys rest).filter (fun x => decide (x ≠ k))
          rw [List.filter_cons_of_pos (by simp [hp]), hd]

lemma mapGet_of_mem_nodup (m : JsMap β) (k : String) (v : β)
    (hnd : (mapKeys m).Nodup) (h : (k, v) ∈ m) : mapGet m k = some v := by
  induction m with
  | nil => simp at h
  | cons p rest ih =>
    rcases List.pairwise_cons.mp hnd with ⟨hp1, hnd'⟩
    rw [mapGet]
    rcases List.mem_cons.mp h with rfl | hmem
    · rw [if_pos rfl]
    · by_cases hp : p.1 = k
      · exfalso
        have : k ∈ mapKeys rest := by
          simp only [mapKeys, List.mem_map]
          exact ⟨(k, v), hmem, rfl⟩
        exact hp1 k this hp
      · rw [if_neg hp]
        exact ih hnd' hmem

end MapLemmas

/-! ## Lemmas about batch removal -/

section StoreLemmas

variable {K : Type} [LinearOrderedField K]

lemma removeBatch_append_ok (pre : List String) :
    ∀ (m m' : JsMap (VectorEntry K)) (l : List String),
    MemoryVectorStore.removeBatch m pre = (.ok (), m') →
    MemoryVectorStore.removeBatch m (pre ++ l) =
      MemoryVectorStore.removeBatch m' l := by
  induction pre with
  | nil =>
    intro m m' l h
    have : m = m' := congrArg Prod.snd h
    rw [this]
    rfl
  | cons id rest ih =>
    intro m m' l h
    rw [MemoryVectorStore.removeBatch] at h
    rw [List.cons_append, MemoryVectorStore.removeBatch]
    rcases h0 : mapDelete m id with _ | m₁
    · rw [h0] at h
      exact absurd (congrArg Prod.fst h) (by simp)
    · rw [h0] at h
      exact ih m₁ m' l h

lemma removeBatch_ok_removed (pre : List String) :
    ∀ (m m' : JsMap (VectorEntry K)), (mapKeys m).Nodup →
    MemoryVectorStore.removeBatch m pre = (.ok (), m') →
    (mapKeys m').Nodup ∧ (∀ a ∈ pre, mapGet m' a = none) ∧
      (∀ k, k ∉ pre → mapGet m' k = mapGet m k) := by
  induction pre with
  | nil =>
    intro m m' hnd h
    have : m = m' := congrArg Prod.snd h
    subst this
    exact ⟨hnd, by simp, fun _ _ => rfl⟩
  | cons id rest ih =>
    intro m m' hnd h
    rw [MemoryVectorStore.removeBatch] at h
    rcases h0 : mapDelete m id with _ | m₁
    · rw [h0] at h
      exact absurd (congrArg Prod.fst h) (by simp)
    · rw [h0] at h
      obtain ⟨h1nd, h1get, h1other, _⟩ := mapDelete_some_spec m id m₁ hnd h0
      obtain ⟨h2nd, h2rem, h2other⟩ := ih m₁ m' h1nd h
      refine ⟨h2nd, ?_, ?_⟩
      · intro a ha
        rcases List.mem_cons.mp ha with rfl | ha
        · by_cases hmem : a ∈ rest
          · exact h2rem a hmem
          · rw [h2other a hmem]
            exact h1get
        · exact h2rem a ha
      · intro k hk
        rw [h2other k (fun hm => hk (List.mem_cons_of_mem _ hm)),
          h1other k (fun he => hk (he ▸ List.mem_cons_self _ _))]

end StoreLemmas

/-! ## Claim C4 -/

/-- Claim C4: batch removal is not transactional.  If removing the ids in
`pre` succeeds (ending in store `m'`) and `bad` is absent from `m'`, then
`removeBatch (pre ++ bad :: rest)` fails with the not-found error for
`bad`, the store is left at `m'`, and every id of `pre` has been removed
and stays removed (retrievable via neither `get` nor `has`). -/
theorem claim_C4_removeBatch_not_atomic {K : Type} [LinearOrderedField K]
    (m m' : JsMap (VectorEntry K)) (pre rest : List String) (bad : String)
    (hnd : (mapKeys m).Nodup)
    (hpre : MemoryVectorStore.removeBatch m pre = (.ok (), m'))
    (hbad : MemoryVectorStore.has m' bad = false) :
    MemoryVectorStore.removeBatch m (pre ++ bad :: rest) =
      (.error ("Vector with id " ++ bad ++ " not found"), m') ∧
    ∀ a ∈ pre, MemoryVectorStore.get m' a = none ∧
      MemoryVectorStore.has m' a = false := by
  have hbadget : mapGet m' bad = none := by
    rcases h0 : mapGet m' bad with _ | v
    · rfl
    · rw [MemoryVectorStore.has, h0] at hbad
      simp at hbad
  constructor
  · rw [removeBatch_append_ok pre m m' (bad :: rest) hpre]
    rw [MemoryVectorStore.removeBatch,
      (mapDelete_none_iff m' bad).mpr hbadget]
  · intro a ha
    obtain ⟨_, hrem, _⟩ := removeBatch_ok_removed pre m m' hnd hpre
    refine ⟨hrem a ha, ?_⟩
    rw [MemoryVectorStore.has, hrem a ha]
    rfl


/-- Witness for `claim_C4_removeBatch_not_atomic`: the spec's scenario —
removing `["A", "B"]` where only `"A"` exists throws `NotFound` and
leaves `"A"` removed. -/
theorem claim_C4_witness :
    (mapKeys [("A", exEntryA)]).Nodup ∧
    MemoryVectorStore.removeBatch [("A", exEntryA)] ["A"] =
      (.ok (), ([] : JsMap (VectorEntry ℚ))) ∧
    MemoryVectorStore.has ([] : JsMap (VectorEntry ℚ)) "B" = false ∧
    (MemoryVectorStore.removeBatch [("A", exEntryA)] (["A"] ++ "B" :: []) =
        (.error ("Vector with id " ++ "B" ++ " not found"),
          ([] : JsMap (VectorEntry ℚ))) ∧
      ∀ a ∈ ["A"], MemoryVectorStore.get ([] : JsMap (VectorEntry ℚ)) a = none ∧
        MemoryVectorStore.has ([] : JsMap (VectorEntry ℚ)) a = false) :=
  ⟨by decide, by decide, by decide,
    claim_C4_removeBatch_not_atomic [("A", exEntryA)] [] ["A"] [] "B"
      (by decide) (by decide) (by decide)⟩

/-! ## Claim C10 -/

/-- Claim C10: adding an entry whose `metadata.id` is already a key of the
store succeeds, silently replaces the stored entry under that id, leaves
the size unchanged, leaves every other id's entry unchanged, and
preserves id-uniqueness.  (The hypotheses that the store's keys are
distinct and non-empty are the store's own invariants: `add` rejects
empty ids and a JS `Map` cannot hold duplicate keys.) -/
theorem claim_C10_add_replaces {K : Type} [LinearOrderedField K]
    (m : JsMap (VectorEntry K)) (e : VectorEntry K)
    (hnd : (mapKeys m).Nodup)
    (hmem : e.metadata.id ∈ mapKeys m)
    (hids : "" ∉ mapKeys m) :
    ∃ m', MemoryVectorStore.add m e = .ok m' ∧
      MemoryVectorStore.size m' = MemoryVectorStore.size m ∧
      MemoryVectorStore.get m' e.metadata.id = some e ∧
      (∀ k, k ≠ e.metadata.id →
        MemoryVectorStore.get m' k = MemoryVectorStore.get m k) ∧
      (mapKeys m').Nodup := by
  have hne : e.metadata.id ≠ "" := fun h => hids (h ▸ hmem)
  refine ⟨mapSet m e.metadata.id e, ?_, ?_, ?_, ?_, ?_⟩
  · rw [MemoryVectorStore.add, if_neg hne]
  · exact mapSet_length_mem m _ e hmem
  · exact mapGet_mapSet_self m _ e
  · intro k hk
    exact mapGet_mapSet_ne m _ k e (fun h => hk h.symm)
  · rw [mapKeys_mapSet_mem m _ e hmem]
    exact hnd

/-- Witness for `claim_C10_add_replaces`: re-adding id `"A"` with a new
vector replaces the old entry and keeps the size at 1. -/
theorem claim_C10_witness :
    (mapKeys [("A", exEntryA)]).Nodup ∧
    exEntryA2.metadata.id ∈ mapKeys [("A", exEntryA)] ∧
    "" ∉ mapKeys [("A", exEntryA)] ∧
    (∃ m', MemoryVectorStore.add [("A", exEntryA)] exEntryA2 = .ok m' ∧
      MemoryVectorStore.size m' = MemoryVectorStore.size [("A", exEntryA)] ∧
      MemoryVectorStore.get m' exEntryA2.metadata.id = some exEntryA2 ∧
      (∀ k, k ≠ exEntryA2.metadata.id →
        MemoryVectorStore.get m' k = MemoryVectorStore.get [("A", exEntryA)] k) ∧
      (mapKeys m').Nodup) :=
  ⟨by decide, by decide, by decide,
    claim_C10_add_replaces [("A", exEntryA)] exEntryA2
      (by decide) (by decide) (by decide)⟩

/-! ## Lemmas for the search pipeline -/

section SearchLemmas

variable {K : Type} [LinearOrderedField K]

lemma map_snd_filter_snd {α : Type} (p : α → Bool) (l : List (Nat × α)) :
    (l.filter (fun r => p r.2)).map Prod.snd = (l.map Prod.snd).filter p := by
  induction l with
  | nil => rfl
  | cons x xs ih =>
    rw [List.filter, List.map_cons, List.filter]
    cases p x.2 <;> simp [ih]

lemma map_snd_filter_minScore (ms : K) (l : List (Nat × VSSearchResult K)) :
    (l.filter (fun r => decide (ms ≤ r.2.score))).map Prod.snd =
      (l.map Prod.snd).filter (fun r => decide (ms ≤ r.score)) :=
  map_snd_filter_snd (fun x => decide (ms ≤ x.score)) l

lemma map_snd_filter_meta (f : VectorMetadata → Bool)
    (l : List (Nat × VSSearchResult K)) :
    (l.filter (fun r => f r.2.entry.metadata)).map Prod.snd =
      (l.map Prod.snd).filter (fun r => f r.entry.metadata) :=
  map_snd_filter_snd (fun x => f x.entry.metadata) l

lemma enumFrom_pairwise_fst {α : Type} :
    ∀ (n : Nat) (l : List α),
    (List.enumFrom n l).Pairwise (fun a b => a.1 < b.1) := by
  intro n l
  induction l generalizing n with
  | nil => simp
  | cons x xs ih =>
    rw [List.enumFrom]
    refine List.pairwise_cons.mpr ⟨?_, ih (n + 1)⟩
    rintro ⟨i, y⟩ hy
    have := (List.mem_enumFrom hy).1
    simpa using this

lemma enum_pairwise_fst {α : Type} (l : List α) :
    l.enum.Pairwise (fun a b => a.1 < b.1) :=
  enumFrom_pairwise_fst 0 l

lemma scoreEntries_ok_spec (sqrt : K → K) (q : List K) :
    ∀ (es : List (VectorEntry K)) (results : List (VSSearchResult K)),
    MemoryVectorStore.scoreEntries sqrt q es = .ok results →
    ∀ p ∈ results, p.entry ∈ es ∧
      MemoryVectorStore.cosineSimilarity sqrt q p.entry.vector = .ok p.score := by
  intro es
  induction es with
  | nil =>
    intro results h p hp
    rw [MemoryVectorStore.scoreEntries] at h
    obtain rfl : ([] : List (VSSearchResult K)) = results := by simpa using h
    simp at hp
  | cons e rest ih =>
    intro results h p hp
    rw [MemoryVectorStore.scoreEntries] at h
    rcases h1 : MemoryVectorStore.cosineSimilarity sqrt q e.vector with s | s
    · rw [h1] at h; simp at h
    · rw [h1] at h
      rcases h2 : MemoryVectorStore.scoreEntries sqrt q rest with s' | others
      · rw [h2] at h; simp at h
      · rw [h2] at h
        obtain rfl : (⟨e, s⟩ : VSSearchResult K) :: others = results := by
          simpa using h
        rcases List.mem_cons.mp hp with rfl | hp
        · exact ⟨List.mem_cons_self _ _, h1⟩
        · obtain ⟨hmem, hcos⟩ := ih others h2 p hp
          exact ⟨List.mem_cons_of_mem _ hmem, hcos⟩

lemma scoreEntries_ok_complete (sqrt : K → K) (q : List K) :
    ∀ (es : List (VectorEntry K)) (results : List (VSSearchResult K)),
    MemoryVectorStore.scoreEntries sqrt q es = .ok results →
    ∀ e ∈ es, ∀ s,
      MemoryVectorStore.cosineSimilarity sqrt q e.vector = .ok s →
      (⟨e, s⟩ : VSSearchResult K) ∈ results := by
  intro es
  induction es with
  | nil =>
    intro results h e he
    simp at he
  | cons e0 rest ih =>
    intro results h e he s hcos
    rw [MemoryVectorStore.scoreEntries] at h
    rcases h1 : MemoryVectorStore.cosineSimilarity sqrt q e0.vector with s0 | s0
    · rw [h1] at h; simp at h
    · rw [h1] at h
      rcases h2 : MemoryVectorStore.scoreEntries sqrt q rest with s' | others
      · rw [h2] at h; simp at h
      · rw [h2] at h
        obtain rfl : (⟨e0, s0⟩ : VSSearchResult K) :: others = results := by
          simpa using h
        rcases List.mem_cons.mp he with rfl | he'
        · rw [h1] at hcos
          obtain rfl : s0 = s := Except.ok.inj hcos
          exact List.mem_cons_self _ _
        · exact List.mem_cons_of_mem _ (ih others h2 e he' s hcos)

end SearchLemmas

/-! ## Claim C8 -/

/-- Claim C8: the sort in `VectorStore.search` is stable over the
insertion-ordered entry sequence: annotating each scored entry with its
position in the store, the returned list is ordered by (descending
score, then ascending store position), and dropping the annotations
gives exactly the list `search` returns. -/
theorem claim_C8_tie_insertion_order {K : Type} [LinearOrderedField K]
    (sqrt : K → K) (m : JsMap (VectorEntry K)) (q : List K)
    (opts : VSSearchOptions K) (res : List (VSSearchResult K))
    (h : MemoryVectorStore.search sqrt m q opts = .ok res) :
    ∃ ann, MemoryVectorStore.searchAnnotated sqrt m q opts = .ok ann ∧
      res = ann.map Prod.snd ∧
      ann.Pairwise (fun a b =>
        b.2.score < a.2.score ∨ (a.2.score = b.2.score ∧ a.1 < b.1)) := by
  obtain ⟨topK, minScore, filter⟩ := opts
  rcases hs : MemoryVectorStore.scoreEntries sqrt q (mapValues m) with s | results
  · rw [MemoryVectorStore.search, hs] at h
    simp [Except.map] at h
  · rw [MemoryVectorStore.search, hs] at h
    simp only [Except.map] at h
    have hres : res = MemoryVectorStore.applyOptions results ⟨topK, minScore, filter⟩ :=
      (Except.ok.inj h).symm
    rcases filter with _ | f <;> rcases minScore with _ | ms
    all_goals {
      refine ⟨_, by rw [MemoryVectorStore.searchAnnotated, hs]; rfl, ?_, ?_⟩
      · rw [hres, MemoryVectorStore.applyOptions, MemoryVectorStore.sortResults]
        rw [List.map_take]
        rw [sortByScoreDesc_map_snd]
        congr 1
        simp only [map_snd_filter_minScore, map_snd_filter_meta,
          List.enum_map_snd]
      · refine List.Pairwise.imp (fun {a b} hab => hab)
          ((sortByScoreDesc_pairwise_lex
            (fun r : Nat × VSSearchResult K => r.2.score)
            (fun r : Nat × VSSearchResult K => r.1) _ ?_).sublist
              (List.take_sublist topK _))
        first
        | exact enum_pairwise_fst results
        | exact (enum_pairwise_fst results).filter _
        | exact ((enum_pairwise_fst results).filter _).filter _
    }

/-- Witness for `claim_C8_tie_insertion_order`: two entries with equal
scores come back in insertion order. -/
theorem claim_C8_witness :
    ∃ ann, MemoryVectorStore.searchAnnotated (fun x : ℚ => x)
        [("A", exEntryA), ("B", exEntryB)] [1] ⟨2, none, none⟩ = .ok ann ∧
      [⟨exEntryA, 1⟩, ⟨exEntryB, 1⟩] = ann.map Prod.snd ∧
      ann.Pairwise (fun a b =>
        b.2.score < a.2.score ∨ (a.2.score = b.2.score ∧ a.1 < b.1)) :=
  claim_C8_tie_insertion_order (fun x : ℚ => x)
    [("A", exEntryA), ("B", exEntryB)] [1] ⟨2, none, none⟩
    [⟨exEntryA, 1⟩, ⟨exEntryB, 1⟩] (by
      simp [MemoryVectorStore.search, MemoryVectorStore.scoreEntries,
        MemoryVectorStore.cosineSimilarity, MemoryVectorStore.cosineAcc,
        MemoryVectorStore.applyOptions, MemoryVectorStore.sortResults,
        sortByScoreDesc, insertScored, mapValues, exEntryA, exEntryB,
        Except.map])

/-! ## Claim C2 -/

section FilterLemmas

variable {K : Type} [LinearOrderedField K]

lemma mem_minScore_filter (l : List (VSSearchResult K)) (o : Option K)
    (r : VSSearchResult K)
    (h : r ∈ (match o with
      | some ms => l.filter (fun x : VSSearchResult K => decide (ms ≤ x.score))
      | none => l)) :
    r ∈ l ∧ ∀ ms, o = some ms → ms ≤ r.score := by
  cases o with
  | none => exact ⟨h, by simp⟩
  | some ms =>
    rcases List.mem_filter.mp h with ⟨hmem, hpass⟩
    refine ⟨hmem, fun ms' hms' => ?_⟩
    obtain rfl : ms = ms' := Option.some.inj hms'
    simpa using hpass

lemma mem_meta_filter (l : List (VSSearchResult K))
    (o : Option (VectorMetadata → Bool)) (r : VSSearchResult K)
    (h : r ∈ (match o with
      | some f => l.filter (fun x : VSSearchResult K => f x.entry.metadata)
      | none => l)) :
    r ∈ l ∧ ∀ f, o = some f → f r.entry.metadata = true := by
  cases o with
  | none => exact ⟨h, by simp⟩
  | some f =>
    rcases List.mem_filter.mp h with ⟨hmem, hpass⟩
    refine ⟨hmem, fun f' hf' => ?_⟩
    obtain rfl : f = f' := Option.some.inj hf'
    exact hpass

lemma mem_minScore_filter_of (l : List (VSSearchResult K)) (o : Option K)
    (r : VSSearchResult K) (hmem : r ∈ l)
    (hp : ∀ ms, o = some ms → ms ≤ r.score) :
    r ∈ (match o with
      | some ms => l.filter (fun x : VSSearchResult K => decide (ms ≤ x.score))
      | none => l) := by
  cases o with
  | none => exact hmem
  | some ms => exact List.mem_filter.mpr ⟨hmem, by simpa using hp ms rfl⟩

lemma mem_meta_filter_of (l : List (VSSearchResult K))
    (o : Option (VectorMetadata → Bool)) (r : VSSearchResult K)
    (hmem : r ∈ l) (hp : ∀ f, o = some f → f r.entry.metadata = true) :
    r ∈ (match o with
      | some f => l.filter (fun x : VSSearchResult K => f x.entry.metadata)
      | none => l) := by
  cases o with
  | none => exact hmem
  | some f => exact List.mem_filter.mpr ⟨hmem, hp f rfl⟩

lemma take_sort_complete (l : List (VSSearchResult K)) (n : Nat)
    (res : List (VSSearchResult K))
    (hres : res = (MemoryVectorStore.sortResults l).take n)
    (hlen : res.length < n) (r : VSSearchResult K) (hr : r ∈ l) :
    r ∈ res := by
  have hlt : (MemoryVectorStore.sortResults l).length < n := by
    have hl := congrArg List.length hres
    rw [List.length_take] at hl
    omega
  have htake : (MemoryVectorStore.sortResults l).take n =
      MemoryVectorStore.sortResults l :=
    List.take_of_length_le (le_of_lt hlt)
  rw [hres, htake, MemoryVectorStore.sortResults]
  exact (sortByScoreDesc_perm _ _).mem_iff.mpr hr

end FilterLemmas

/-- Claim C2: `VectorStore.search` returns at most `topK` results; every
returned result is a stored entry scored by cosine similarity against the
query, passing the optional metadata filter and the optional `minScore`
threshold; the returned list is sorted descending by score; and whenever
the result is not cut off by `topK`, every stored entry that scores
successfully and passes both filters appears in the result (nothing
else is dropped).  And in the spec's scenario (`topK = 2`, query
`[1,0,0]`, entries `[1,0,0]`, `[0,1,0]`, `[0,0,1]`, `[0.7,0.7,0]`) it
returns exactly the `[1,0,0]` entry (score 1) then the `[0.7,0.7,0]`
entry (score `0.7/√0.98`). -/
theorem claim_C2_search_spec :
    (∀ (K : Type) [LinearOrderedField K] (sqrt : K → K)
        (m : JsMap (VectorEntry K)) (q : List K) (opts : VSSearchOptions K)
        (res : List (VSSearchResult K)),
        MemoryVectorStore.search sqrt m q opts = .ok res →
        res.length ≤ opts.topK ∧
        (∀ r ∈ res, r.entry ∈ mapValues m ∧
          MemoryVectorStore.cosineSimilarity sqrt q r.entry.vector =
            .ok r.score ∧
          (∀ f, opts.filter = some f → f r.entry.metadata = true) ∧
          (∀ ms, opts.minScore = some ms → ms ≤ r.score)) ∧
        res.Pairwise (fun a b => b.score ≤ a.score) ∧
        (res.length < opts.topK →
          ∀ (e : VectorEntry K) (s : K), e ∈ mapValues m →
            MemoryVectorStore.cosineSimilarity sqrt q e.vector = .ok s →
            (∀ f, opts.filter = some f → f e.metadata = true) →
            (∀ ms, opts.minScore = some ms → ms ≤ s) →
            (⟨e, s⟩ : VSSearchResult K) ∈ res)) ∧
    MemoryVectorStore.search Real.sqrt scenStore [1, 0, 0] ⟨2, none, none⟩ =
      .ok [⟨scenE1, 1⟩, ⟨scenE4, scenScore4⟩] := by
  constructor
  · intro K instK sqrt m q opts res h
    rcases hs : MemoryVectorStore.scoreEntries sqrt q (mapValues m)
      with s | results
    · rw [MemoryVectorStore.search, hs] at h
      simp [Except.map] at h
    · rw [MemoryVectorStore.search, hs] at h
      simp only [Except.map] at h
      have hres : res = MemoryVectorStore.applyOptions results opts :=
        (Except.ok.inj h).symm
      rw [MemoryVectorStore.applyOptions] at hres
      refine ⟨?_, ?_, ?_, ?_⟩
      · rw [hres]
        exact List.length_take_le _ _
      · intro r hr
        rw [hres] at hr
        have hsortmem := List.mem_of_mem_take hr
        rw [MemoryVectorStore.sortResults] at hsortmem
        have hf2 := (sortByScoreDesc_perm _ _).mem_iff.mp hsortmem
        obtain ⟨hf1, hminprop⟩ := mem_minScore_filter _ opts.minScore r hf2
        obtain ⟨hmemres, hfprop⟩ := mem_meta_filter _ opts.filter r hf1
        obtain ⟨hmem, hcos⟩ :=
          scoreEntries_ok_spec sqrt q (mapValues m) results hs r hmemres
        exact ⟨hmem, hcos, hfprop, hminprop⟩
      · rw [hres]
        refine List.Pairwise.sublist (List.take_sublist _ _) ?_
        rw [MemoryVectorStore.sortResults]
        exact sortByScoreDesc_pairwise _ _
      · intro hlen e s he hcos hf hms
        have hmem1 : (⟨e, s⟩ : VSSearchResult K) ∈ results :=
          scoreEntries_ok_complete sqrt q (mapValues m) results hs e he s hcos
        have hmem2 := mem_meta_filter_of results opts.filter ⟨e, s⟩ hmem1 hf
        have hmem3 := mem_minScore_filter_of _ opts.minScore ⟨e, s⟩ hmem2 hms
        exact take_sort_complete _ opts.topK res hres hlen _ hmem3
  · have hc1 : MemoryVectorStore.cosineSimilarity Real.sqrt [1, 0, 0]
        scenE1.vector = .ok 1 := by
      rw [MemoryVectorStore.cosineSimilarity, if_neg (by simp [scenE1])]
      simp [scenE1, MemoryVectorStore.cosineAcc, Real.sqrt_one]
    have hc2 : MemoryVectorStore.cosineSimilarity Real.sqrt [1, 0, 0]
        scenE2.vector = .ok 0 := by
      rw [MemoryVectorStore.cosineSimilarity, if_neg (by simp [scenE2])]
      simp [scenE2, MemoryVectorStore.cosineAcc, Real.sqrt_one]
    have hc3 : MemoryVectorStore.cosineSimilarity Real.sqrt [1, 0, 0]
        scenE3.vector = .ok 0 := by
      rw [MemoryVectorStore.cosineSimilarity, if_neg (by simp [scenE3])]
      simp [scenE3, MemoryVectorStore.cosineAcc, Real.sqrt_one]
    have hc4 : MemoryVectorStore.cosineSimilarity Real.sqrt [1, 0, 0]
        scenE4.vector = .ok scenScore4 := by
      rw [MemoryVectorStore.cosineSimilarity, if_neg (by simp [scenE4])]
      have hs : Real.sqrt (49/50) ≠ 0 :=
        ne_of_gt (Real.sqrt_pos.mpr (by norm_num))
      simp [scenE4, MemoryVectorStore.cosineAcc, scenScore4]
      norm_num [Real.sqrt_one, hs]
    have hscore : MemoryVectorStore.scoreEntries Real.sqrt [1, 0, 0]
        (mapValues scenStore) =
        .ok [⟨scenE1, 1⟩, ⟨scenE2, 0⟩, ⟨scenE3, 0⟩, ⟨scenE4, scenScore4⟩] := by
      show MemoryVectorStore.scoreEntries Real.sqrt [1, 0, 0]
        [scenE1, scenE2, scenE3, scenE4] = _
      simp only [MemoryVectorStore.scoreEntries, hc1, hc2, hc3, hc4]
    have hpos : 0 < scenScore4 :=
      div_pos (by norm_num) (Real.sqrt_pos.mpr (by norm_num))
    have hle1 : scenScore4 ≤ 1 := by
      rw [scenScore4, div_le_one (Real.sqrt_pos.mpr (by norm_num))]
      rw [Real.le_sqrt (by norm_num) (by norm_num)]
      norm_num
    have i1 : insertScored (fun r : VSSearchResult ℝ => r.score)
        [] ⟨scenE1, 1⟩ = [⟨scenE1, 1⟩] := rfl
    have i2 : insertScored (fun r : VSSearchResult ℝ => r.score)
        [⟨scenE1, 1⟩] ⟨scenE2, 0⟩ = [⟨scenE1, 1⟩, ⟨scenE2, 0⟩] := by
      rw [insertScored, if_pos (by norm_num : (0:ℝ) ≤ 1)]
      rfl
    have i3 : insertScored (fun r : VSSearchResult ℝ => r.score)
        [⟨scenE1, 1⟩, ⟨scenE2, 0⟩] ⟨scenE3, 0⟩ =
        [⟨scenE1, 1⟩, ⟨scenE2, 0⟩, ⟨scenE3, 0⟩] := by
      rw [insertScored, if_pos (by norm_num : (0:ℝ) ≤ 1),
        insertScored, if_pos (le_refl (0:ℝ))]
      rfl
    have i4 : insertScored (fun r : VSSearchResult ℝ => r.score)
        [⟨scenE1, 1⟩, ⟨scenE2, 0⟩, ⟨scenE3, 0⟩] ⟨scenE4, scenScore4⟩ =
        [⟨scenE1, 1⟩, ⟨scenE4, scenScore4⟩, ⟨scenE2, 0⟩, ⟨scenE3, 0⟩] := by
      rw [insertScored, if_pos hle1, insertScored,
        if_neg (not_le.mpr hpos)]
    have hsort : MemoryVectorStore.sortResults
        [⟨scenE1, 1⟩, ⟨scenE2, 0⟩, ⟨scenE3, 0⟩, ⟨scenE4, scenScore4⟩] =
        [⟨scenE1, 1⟩, ⟨scenE4, scenScore4⟩, ⟨scenE2, 0⟩, ⟨scenE3, 0⟩] := by
      rw [MemoryVectorStore.sortResults, sortByScoreDesc]
      simp only [List.foldl]
      rw [i1, i2, i3, i4]
    rw [MemoryVectorStore.search, hscore]
    simp only [Except.map]
    rw [MemoryVectorStore.applyOptions]
    simp only []
    rw [hsort]
    rfl

/-- Witness for the hypothesis-bearing general part of
`claim_C2_search_spec`, at a concrete two-entry store over `ℚ`. -/
theorem claim_C2_witness :
    MemoryVectorStore.search (fun x : ℚ => x) [("A", exEntryA), ("B", exEntryB)]
      [1] ⟨2, none, none⟩ = .ok [⟨exEntryA, 1⟩, ⟨exEntryB, 1⟩] ∧
    ([⟨exEntryA, 1⟩, ⟨exEntryB, 1⟩] : List (VSSearchResult ℚ)).length ≤ 2 ∧
    (∀ r ∈ ([⟨exEntryA, 1⟩, ⟨exEntryB, 1⟩] : List (VSSearchResult ℚ)),
      r.entry ∈ mapValues [("A", exEntryA), ("B", exEntryB)] ∧
      MemoryVectorStore.cosineSimilarity (fun x : ℚ => x) [1] r.entry.vector =
        .ok r.score ∧
      (∀ f, (none : Option (VectorMetadata → Bool)) = some f →
        f r.entry.metadata = true) ∧
      (∀ ms, (none : Option ℚ) = some ms → ms ≤ r.score)) ∧
    ([⟨exEntryA, 1⟩, ⟨exEntryB, 1⟩] : List (VSSearchResult ℚ)).Pairwise
      (fun a b => b.score ≤ a.score) := by
  have hsearch : MemoryVectorStore.search (fun x : ℚ => x)
      [("A", exEntryA), ("B", exEntryB)] [1] ⟨2, none, none⟩ =
      .ok [⟨exEntryA, 1⟩, ⟨exEntryB, 1⟩] := by
    simp [MemoryVectorStore.search, MemoryVectorStore.scoreEntries,
      MemoryVectorStore.cosineSimilarity, MemoryVectorStore.cosineAcc,
      MemoryVectorStore.applyOptions, MemoryVectorStore.sortResults,
      sortByScoreDesc, insertScored, mapValues, exEntryA, exEntryB,
      Except.map]
  have hgen := claim_C2_search_spec.1 ℚ (fun x : ℚ => x)
    [("A", exEntryA), ("B", exEntryB)] [1] ⟨2, none, none⟩
    [⟨exEntryA, 1⟩, ⟨exEntryB, 1⟩] hsearch
  exact ⟨hsearch, hgen.1, hgen.2.1, hgen.2.2.1⟩


/-! ## Lemmas about the merge map -/

section MergeLemmas

variable {K : Type} [LinearOrderedField K]

lemma mapGet_some_mem {β : Type} (m : JsMap β) (k : String) (v : β)
    (h : mapGet m k = some v) : (k, v) ∈ m := by
  induction m with
  | nil => simp [mapGet] at h
  | cons p rest ih =>
    rw [mapGet] at h
    by_cases hp : p.1 = k
    · rw [if_pos hp] at h
      obtain rfl : p.2 = v := Option.some.inj h
      rcases p with ⟨k', v⟩
      obtain rfl : k' = k := hp
      exact List.mem_cons_self _ _
    · rw [if_neg hp] at h
      exact List.mem_cons_of_mem _ (ih h)

lemma mapSet_keys_nodup {β : Type} (m : JsMap β) (k : String) (v : β)
    (hnd : (mapKeys m).Nodup) : (mapKeys (mapSet m k v)).Nodup := by
  by_cases hmem : k ∈ mapKeys m
  · rw [mapKeys_mapSet_mem m k v hmem]; exact hnd
  · rw [mapKeys_mapSet_not_mem m k v hmem]
    simp [List.nodup_append, hnd, hmem]

lemma mapSet_mem_values {β : Type} (m : JsMap β) (p : String) (v : β)
    (kv : String × β) (hkv : kv ∈ mapSet m p v) : kv = (p, v) ∨ kv ∈ m := by
  induction m with
  | nil =>
    rw [mapSet] at hkv
    rcases List.mem_cons.mp hkv with rfl | h
    · exact Or.inl rfl
    · simp at h
  | cons q rest ih =>
    rw [mapSet] at hkv
    by_cases hq : q.1 = p
    · rw [if_pos hq] at hkv
      rcases List.mem_cons.mp hkv with rfl | h
      · exact Or.inl rfl
      · exact Or.inr (List.mem_cons_of_mem _ h)
    · rw [if_neg hq] at hkv
      rcases List.mem_cons.mp hkv with rfl | h
      · exact Or.inr (List.mem_cons_self _ _)
      · rcases ih h with h1 | h1
        · exact Or.inl h1
        · exact Or.inr (List.mem_cons_of_mem _ h1)

lemma mergeInv_mapSet (m : JsMap (HybridSearchResult K)) (p : String)
    (v : HybridSearchResult K) (hinv : MergeInv m) (hv : p = v.file.path) :
    MergeInv (mapSet m p v) := by
  refine ⟨mapSet_keys_nodup m p v hinv.1, ?_⟩
  intro kv hkv
  rcases mapSet_mem_values m p v kv hkv with rfl | h
  · exact hv
  · exact hinv.2 kv h

lemma processKeyword_inv (kR : List (SearchResult K)) :
    ∀ (acc : JsMap (HybridSearchResult K)), MergeInv acc →
    MergeInv (processKeywordResults kR acc) := by
  induction kR with
  | nil => intro acc h; exact h
  | cons r rest ih =>
    intro acc h
    rw [processKeywordResults]
    rcases hg : mapGet acc r.file.path with _ | ex
    · exact ih _ (mergeInv_mapSet acc _ _ h rfl)
    · refine ih _ (mergeInv_mapSet acc _ _ h ?_)
      exact h.2 (r.file.path, ex) (mapGet_some_mem acc _ ex hg)

lemma processSemantic_inv (sR : List (SearchResult K)) :
    ∀ (acc : JsMap (HybridSearchResult K)), MergeInv acc →
    MergeInv (processSemanticResults sR acc) := by
  induction sR with
  | nil => intro acc h; exact h
  | cons r rest ih =>
    intro acc h
    rw [processSemanticResults]
    rcases hg : mapGet acc r.file.path with _ | ex
    · exact ih _ (mergeInv_mapSet acc _ _ h rfl)
    · refine ih _ (mergeInv_mapSet acc _ _ h ?_)
      exact h.2 (r.file.path, ex) (mapGet_some_mem acc _ ex hg)

lemma mergeInv_values_get (m : JsMap (HybridSearchResult K))
    (hinv : MergeInv m) (v : HybridSearchResult K) (hv : v ∈ mapValues m) :
    mapGet m v.file.path = some v := by
  rcases List.mem_map.mp hv with ⟨⟨k, v'⟩, hkv, rfl⟩
  have hk : k = v'.file.path := hinv.2 (k, v') hkv
  exact mapGet_of_mem_nodup m _ v' hinv.1 (hk ▸ hkv)

/-- Characterization of the keyword pass: starting from a map that does
not yet hold any of the keyword paths, the final map holds, for each
keyword result, a fresh value carrying its score as `keywordScore`. -/
lemma processKeyword_get (kR : List (SearchResult K)) :
    ∀ (acc : JsMap (HybridSearchResult K)) (p : String),
    (∀ r ∈ kR, mapGet acc r.file.path = none) → (pathsOf kR).Nodup →
    mapGet (processKeywordResults kR acc) p =
      match kR.find? (fun r => decide (r.file.path = p)) with
      | some r => some ⟨r.file, r.score, r.matchList, some r.score, none⟩
      | none => mapGet acc p := by
  induction kR with
  | nil => intro acc p _ _; rfl
  | cons r rest ih =>
    intro acc p hnone hnd
    rw [processKeywordResults,
      hnone r (List.mem_cons_self r rest)]
    have hndr : (pathsOf rest).Nodup := (List.nodup_cons.mp hnd).2
    have hhead : r.file.path ∉ pathsOf rest := (List.nodup_cons.mp hnd).1
    have hnone' : ∀ x ∈ rest,
        mapGet (mapSet acc r.file.path
          ⟨r.file, r.score, r.matchList, some r.score, none⟩) x.file.path =
        none := by
      intro x hx
      have hne : r.file.path ≠ x.file.path := by
        intro he
        exact hhead (he ▸ List.mem_map.mpr ⟨x, hx, rfl⟩)
      rw [mapGet_mapSet_ne _ _ _ _ hne]
      exact hnone x (List.mem_cons_of_mem _ hx)
    rw [ih _ p hnone' hndr]
    by_cases hp : r.file.path = p
    · subst hp
      have hfc : List.find? (fun x => decide (x.file.path = r.file.path))
          (r :: rest) = some r :=
        List.find?_cons_of_pos _ (by simp)
      have hfind : rest.find?
          (fun x => decide (x.file.path = r.file.path)) = none := by
        rw [List.find?_eq_none]
        intro x hx
        simp only [decide_eq_true_eq]
        intro he
        exact hhead (he ▸ List.mem_map.mpr ⟨x, hx, rfl⟩)
      rw [hfc, hfind]
      show mapGet (mapSet acc r.file.path _) r.file.path = _
      rw [mapGet_mapSet_self]
    · have hfc : List.find? (fun x => decide (x.file.path = p))
          (r :: rest) = rest.find? (fun x => decide (x.file.path = p)) :=
        List.find?_cons_of_neg _ (by simp [hp])
      rw [hfc]
      cases hfd : rest.find? (fun x => decide (x.file.path = p)) with
      | none =>
        show mapGet (mapSet acc r.file.path _) p = mapGet acc p
        rw [mapGet_mapSet_ne _ _ _ _ hp]
      | some x => rfl

/-- Characterization of the semantic pass: for each path, it overlays the
semantic score on whatever the keyword pass produced, or inserts a fresh
semantic-only value. -/
lemma processSemantic_get (sR : List (SearchResult K)) :
    ∀ (acc : JsMap (HybridSearchResult K)) (p : String),
    (pathsOf sR).Nodup →
    mapGet (processSemanticResults sR acc) p =
      match sR.find? (fun r => decide (r.file.path = p)) with
      | some r =>
        match mapGet acc p with
        | some ex => some { ex with
            matchList := mergeMatches r.matchList ex.matchList
            semanticScore := some r.score }
        | none => some ⟨r.file, r.score, r.matchList, none, some r.score⟩
      | none => mapGet acc p := by
  induction sR with
  | nil => intro acc p _; rfl
  | cons r rest ih =>
    intro acc p hnd
    have hndr : (pathsOf rest).Nodup := (List.nodup_cons.mp hnd).2
    have hhead : r.file.path ∉ pathsOf rest := (List.nodup_cons.mp hnd).1
    rw [processSemanticResults]
    by_cases hp : r.file.path = p
    · subst hp
      have hfc : List.find? (fun x => decide (x.file.path = r.file.path))
          (r :: rest) = some r :=
        List.find?_cons_of_pos _ (by simp)
      have hfind : rest.find?
          (fun x => decide (x.file.path = r.file.path)) = none := by
        rw [List.find?_eq_none]
        intro x hx
        simp only [decide_eq_true_eq]
        intro he
        exact hhead (he ▸ List.mem_map.mpr ⟨x, hx, rfl⟩)
      rw [hfc]
      rcases hg : mapGet acc r.file.path with _ | ex
      · rw [ih _ r.file.path hndr, hfind]
        show mapGet (mapSet acc r.file.path _) r.file.path = _
        rw [mapGet_mapSet_self]
      · rw [ih _ r.file.path hndr, hfind]
        show mapGet (mapSet acc r.file.path _) r.file.path = _
        rw [mapGet_mapSet_self]
    · have hfc : List.find? (fun x => decide (x.file.path = p))
          (r :: rest) = rest.find? (fun x => decide (x.file.path = p)) :=
        List.find?_cons_of_neg _ (by simp [hp])
      rw [hfc]
      rcases hg : mapGet acc r.file.path with _ | ex
      · rw [ih _ p hndr]
        cases hfd : rest.find? (fun x => decide (x.file.path = p)) with
        | none =>
          show mapGet (mapSet acc r.file.path _) p = mapGet acc p
          rw [mapGet_mapSet_ne _ _ _ _ hp]
        | some x =>
          show (match mapGet (mapSet acc r.file.path _) p with
            | some ex => some { ex with
                matchList := mergeMatches x.matchList ex.matchList
                semanticScore := some x.score }
            | none => some ⟨x.file, x.score, x.matchList, none, some x.score⟩) = _
          rw [mapGet_mapSet_ne _ _ _ _ hp]
      · rw [ih _ p hndr]
        cases hfd : rest.find? (fun x => decide (x.file.path = p)) with
        | none =>
          show mapGet (mapSet acc r.file.path _) p = mapGet acc p
          rw [mapGet_mapSet_ne _ _ _ _ hp]
        | some x =>
          show (match mapGet (mapSet acc r.file.path _) p with
            | some ex => some { ex with
                matchList := mergeMatches x.matchList ex.matchList
                semanticScore := some x.score }
            | none => some ⟨x.file, x.score, x.matchList, none, some x.score⟩) = _
          rw [mapGet_mapSet_ne _ _ _ _ hp]

end MergeLemmas

/-! ## Claim C3 -/

/-- Claim C3: each merged document's combined score is
`keywordScore * keywordWeight + semanticScore * semanticWeight`, where a
document missing from one engine's results contributes 0 for that
engine; the merged list is sorted descending by combined score and
truncated to `limit`; and with child scores 0.8/0.6 and the default
weights 0.7/0.3 the combined score is exactly 0.74. -/
theorem claim_C3_hybrid_score :
    (∀ (K : Type) [LinearOrderedField K] (kR sR : List (SearchResult K))
        (limit : Nat) (kw sw : K),
        (pathsOf kR).Nodup → (pathsOf sR).Nodup →
        ∀ r ∈ mergeResults kR sR limit kw sw,
          r.score = childScore kR r.file.path * kw +
            childScore sR r.file.path * sw) ∧
    (∀ (K : Type) [LinearOrderedField K] (kR sR : List (SearchResult K))
        (limit : Nat) (kw sw : K),
        (mergeResults kR sR limit kw sw).Pairwise
          (fun a b => b.score ≤ a.score) ∧
        (mergeResults kR sR limit kw sw).length ≤ limit) ∧
    hybridWeights (none : Option (ℚ × ℚ)) = (7 / 10, 3 / 10) ∧
    mergeResults [⟨exFileA, 8 / 10, []⟩] [⟨exFileA, 6 / 10, []⟩] 10
      ((7 : ℚ) / 10) (3 / 10) = [⟨exFileA, 74 / 100, []⟩] := by
  refine ⟨?_, ?_, ?_, ?_⟩
  · intro K instK kR sR limit kw sw hndk hnds r hr
    simp only [mergeResults] at hr
    have hr2 := (sortByScoreDesc_perm _ _).mem_iff.mp (List.mem_of_mem_take hr)
    rcases List.mem_map.mp hr2 with ⟨v, hv, rfl⟩
    have hinv : MergeInv (processSemanticResults sR
        (processKeywordResults kR [])) :=
      processSemantic_inv sR _ (processKeyword_inv kR [] ⟨by simp [mapKeys], by simp⟩)
    have hget := mergeInv_values_get _ hinv v hv
    rw [processSemantic_get sR _ v.file.path hnds] at hget
    rw [processKeyword_get kR [] v.file.path (by intro x _; rfl) hndk] at hget
    rcases hsf : sR.find? (fun x => decide (x.file.path = v.file.path))
      with _ | rs <;>
    rcases hkf : kR.find? (fun x => decide (x.file.path = v.file.path))
      with _ | rk <;>
    rw [hsf, hkf] at hget
    · exact absurd hget (by exact fun h => Option.noConfusion h)
    · obtain rfl : (⟨rk.file, rk.score, rk.matchList, some rk.score, none⟩ :
          HybridSearchResult K) = v := Option.some.inj hget
      show rk.score * kw + (0 : K) * sw = _
      simp [childScore, hsf, hkf]
    · obtain rfl : (⟨rs.file, rs.score, rs.matchList, none, some rs.score⟩ :
          HybridSearchResult K) = v := Option.some.inj hget
      show (0 : K) * kw + rs.score * sw = _
      simp [childScore, hsf, hkf]
    · obtain rfl : (⟨rk.file, rk.score,
          mergeMatches rs.matchList rk.matchList,
          some rk.score, some rs.score⟩ :
          HybridSearchResult K) = v := Option.some.inj hget
      show rk.score * kw + rs.score * sw = _
      simp [childScore, hsf, hkf]
  · intro K instK kR sR limit kw sw
    constructor
    · simp only [mergeResults]
      exact (sortByScoreDesc_pairwise _ _).sublist (List.take_sublist _ _)
    · simp only [mergeResults]
      exact List.length_take_le _ _
  · rw [hybridWeights]
    norm_num
  · simp only [mergeResults, processKeywordResults, processSemanticResults,
      mapGet, mapSet, mapValues, sortByScoreDesc, insertScored, List.foldl,
      List.map]
    norm_num [mergeMatches]

/-- Witness for the hypothesis-bearing part of `claim_C3_hybrid_score`,
at the spec's 0.8/0.6 scenario. -/
theorem claim_C3_witness :
    (pathsOf [(⟨exFileA, 8 / 10, []⟩ : SearchResult ℚ)]).Nodup ∧
    (pathsOf [(⟨exFileA, 6 / 10, []⟩ : SearchResult ℚ)]).Nodup ∧
    ((⟨exFileA, 74 / 100, []⟩ : SearchResult ℚ)).score =
      childScore [(⟨exFileA, 8 / 10, []⟩ : SearchResult ℚ)]
          (⟨exFileA, (74 : ℚ) / 100, []⟩ : SearchResult ℚ).file.path * (7 / 10) +
        childScore [(⟨exFileA, 6 / 10, []⟩ : SearchResult ℚ)]
          (⟨exFileA, (74 : ℚ) / 100, []⟩ : SearchResult ℚ).file.path * (3 / 10) :=
  ⟨by decide, by decide,
    claim_C3_hybrid_score.1 ℚ [⟨exFileA, 8 / 10, []⟩] [⟨exFileA, 6 / 10, []⟩]
      10 (7 / 10) (3 / 10) (by decide) (by decide) ⟨exFileA, 74 / 100, []⟩
      (by rw [claim_C3_hybrid_score.2.2.2]; exact List.mem_singleton.mpr rfl)⟩

/-! ## Claim C1 -/

/-- Claim C1, counterexample: on a not-yet-initialized engine whose
provider is not ready, `search` *does* propagate an exception: the
`initialize()` call runs before the try block, and its
"Embedding provider failed to initialize" error reaches the caller
instead of being turned into an empty result list. -/
theorem claim_C1_counterexample :
    semanticSearch (fun x : ℚ => x) engNotReady "any query" 10 =
      .error "Embedding provider failed to initialize" := rfl

/-- Claim C1 (amended): once `initialize()` succeeds, `search` never
propagates an exception — it returns some result list, and any failure
of the query embedding or of the vector-store search yields the empty
result list; but failures of `initialize()` itself (cache load, provider
readiness), which runs before the try block, do propagate (see the
counterexample). -/
theorem claim_C1_errors_caught {K : Type} [LinearOrderedField K]
    (sqrt : K → K) (eng eng' : SemanticEngine K) (query : String)
    (limit : Nat) (hinit : initEngine eng = .ok eng') :
    (∃ res, semanticSearch sqrt eng query limit = .ok res) ∧
    (∀ e, eng'.embed query = .error e →
      semanticSearch sqrt eng query limit = .ok []) ∧
    (∀ qe e, eng'.embed query = .ok qe →
      MemoryVectorStore.search sqrt eng'.store qe ⟨limit * 2, none, none⟩ =
        .error e →
      semanticSearch sqrt eng query limit = .ok []) := by
  refine ⟨?_, ?_, ?_⟩
  · unfold semanticSearch
    rw [hinit]
    rcases he : eng'.embed query with e | qe
    · exact ⟨[], by simp only [he]⟩
    · rcases hs : MemoryVectorStore.search sqrt eng'.store qe
        ⟨limit * 2, none, none⟩ with e | sr
      · exact ⟨[], by simp only [he, hs]⟩
      · exact ⟨groupResults eng' sr query limit, by simp only [he, hs]⟩
  · intro e he
    unfold semanticSearch
    rw [hinit]
    simp only [he]
  · intro qe e he hs
    unfold semanticSearch
    rw [hinit]
    simp only [he, hs]

/-- Witness for `claim_C1_errors_caught`: a provider outage on an
initialized engine degrades to an empty result list. -/
theorem claim_C1_witness :
    initEngine engDown = .ok engDown ∧
    engDown.embed "q" = .error "provider down" ∧
    semanticSearch (fun x : ℚ => x) engDown "q" 10 = .ok [] :=
  ⟨rfl, rfl,
    (claim_C1_errors_caught (fun x : ℚ => x) engDown engDown "q" 10 rfl).2.1
      "provider down" rfl⟩

/-! ## Claim C9 -/

lemma indexFile_skip {K : Type} [LinearOrderedField K]
    (eng : SemanticEngine K) (file : FileInfo) (doc : IndexedDocument)
    (hdoc : mapGet eng.indexedDocuments file.path = some doc)
    (hmod : file.modified ≤ doc.lastModified) :
    indexFile eng file = eng := by
  unfold indexFile
  rcases hc : file.content with _ | content
  · rfl
  · by_cases hce : content = ""
    · simp [hce]
    · simp only [if_neg hce, hdoc,
        if_pos (show doc.lastModified ≥ file.modified from hmod)]

/-- Claim C9: a file whose `modified` timestamp is at most the
`lastModified` recorded at its previous indexing is skipped: `indexFile`
leaves the whole engine state (vector store, indexed-documents map,
files map) unchanged, and — on an initialized engine — so do `update`
and `index`, even when the supplied content differs from what was
indexed before. -/
theorem claim_C9_skip_unchanged {K : Type} [LinearOrderedField K]
    (eng : SemanticEngine K) :
    (∀ (file : FileInfo) (doc : IndexedDocument),
      mapGet eng.indexedDocuments file.path = some doc →
      file.modified ≤ doc.lastModified →
      indexFile eng file = eng) ∧
    (eng.isInitialized = true →
      ∀ (files : List FileInfo),
      (∀ f ∈ files, ∃ doc, mapGet eng.indexedDocuments f.path = some doc ∧
        f.modified ≤ doc.lastModified) →
      semanticIndex eng files = .ok eng ∧
      ∀ f ∈ files, semanticUpdate eng f = .ok eng) := by
  have hskip := indexFile_skip eng
  refine ⟨hskip, ?_⟩
  intro hini files hall
  have hinit : initEngine eng = .ok eng := by
    unfold initEngine
    rw [if_pos (by rw [hini])]
  have hfold : files.foldl indexFile eng = eng := by
    induction files with
    | nil => rfl
    | cons f fs ih =>
      obtain ⟨doc, hdoc, hmod⟩ := hall f (List.mem_cons_self f fs)
      rw [List.foldl_cons, hskip f doc hdoc hmod]
      exact ih fun f' hf' => hall f' (List.mem_cons_of_mem _ hf')
  constructor
  · unfold semanticIndex
    rw [hinit]
    simp only [hfold]
  · intro f hf
    obtain ⟨doc, hdoc, hmod⟩ := hall f hf
    unfold semanticUpdate
    rw [hinit]
    simp only [hskip f doc hdoc hmod]

/-- Witness for `claim_C9_skip_unchanged`: re-supplying `/doc.md` with
different content but an older timestamp (50 ≤ 100) changes nothing. -/
theorem claim_C9_witness :
    mapGet engIndexed.indexedDocuments exFileOld.path =
      some ⟨"/doc.md", [], 100⟩ ∧
    exFileOld.modified ≤ (100 : Int) ∧
    indexFile engIndexed exFileOld = engIndexed ∧
    semanticIndex engIndexed [exFileOld] = .ok engIndexed ∧
    semanticUpdate engIndexed exFileOld = .ok engIndexed :=
  ⟨rfl, by decide,
    (claim_C9_skip_unchanged engIndexed).1 exFileOld ⟨"/doc.md", [], 100⟩
      rfl (by decide),
    ((claim_C9_skip_unchanged engIndexed).2 rfl [exFileOld]
      (fun f hf => ⟨⟨"/doc.md", [], 100⟩, by
        rw [show f = exFileOld from List.mem_singleton.mp hf]
        exact ⟨rfl, by decide⟩⟩)).1,
    (((claim_C9_skip_unchanged engIndexed).2 rfl [exFileOld]
      (fun f hf => ⟨⟨"/doc.md", [], 100⟩, by
        rw [show f = exFileOld from List.mem_singleton.mp hf]
        exact ⟨rfl, by decide⟩⟩)).2 exFileOld
      (List.mem_singleton.mpr rfl))⟩

end Context6
